import Mathlib

/-
Verification of the event-log scraper (daily_event_monitor.py and script.py).

The embedding models Python values by the inductive PyVal (JSON values plus
tuples), Python exceptions by PyErr, and the DailyEventMonitor class by a
structure holding the two instance attributes.  The wall clock (time_now)
is passed in as an explicit string parameter, and the file system is passed
in as an explicit map from paths to file contents, so that every operation
of the source becomes a pure state-passing function.
-/

set_option maxRecDepth 4000

/-- A Python/JSON value as it occurs in this program: None, booleans,
integers, strings, lists, tuples and string-keyed dictionaries.  A
dictionary is an insertion-ordered association list, as Python dicts are. -/
inductive PyVal where
  | null : PyVal
  | bool : Bool → PyVal
  | int : Int → PyVal
  | str : String → PyVal
  | lst : List PyVal → PyVal
  | tup : List PyVal → PyVal
  | dict : List (String × PyVal) → PyVal

/-- The Python exceptions this program can raise. -/
inductive PyErr where
  | valueError : String → PyErr
  | attributeError : String → PyErr
  | typeError : String → PyErr
  | indexError : String → PyErr
  | keyError : String → PyErr
  | overflowError : String → PyErr

mutual

/-- Python's equality `==` on the values above: tuples and lists never
compare equal, booleans compare equal to the integers 0 and 1, and
dictionaries compare as key-value sets, ignoring insertion order. -/
def pyEq (x y : PyVal) : Bool :=
  match x, y with
  | PyVal.null, PyVal.null => true
  | PyVal.bool a, PyVal.bool b => a == b
  | PyVal.bool a, PyVal.int n => (if a then (1 : Int) else 0) == n
  | PyVal.int n, PyVal.bool a => n == (if a then (1 : Int) else 0)
  | PyVal.int a, PyVal.int b => a == b
  | PyVal.str a, PyVal.str b => a == b
  | PyVal.lst a, PyVal.lst b => pyEqList a b
  | PyVal.tup a, PyVal.tup b => pyEqList a b
  | PyVal.dict a, PyVal.dict b => pyEqDictSub a b && pyEqDictSub b a
  | _, _ => false
termination_by sizeOf x + sizeOf y
decreasing_by all_goals (simp_wf; try omega)

/-- Elementwise Python equality of two sequences. -/
def pyEqList (xs ys : List PyVal) : Bool :=
  match xs, ys with
  | [], [] => true
  | a :: as, b :: bs => pyEq a b && pyEqList as bs
  | _, _ => false
termination_by sizeOf xs + sizeOf ys
decreasing_by all_goals (simp_wf; try omega)

/-- Every key of the first association list is present in the second with a
Python-equal value. -/
def pyEqDictSub (xs other : List (String × PyVal)) : Bool :=
  match xs with
  | [] => true
  | (k, v) :: rest => pyEqFind k v other && pyEqDictSub rest other
termination_by sizeOf xs + sizeOf other
decreasing_by all_goals (simp_wf; try omega)

/-- The key is present in the association list with a Python-equal value. -/
def pyEqFind (k : String) (v : PyVal) (other : List (String × PyVal)) : Bool :=
  match other with
  | [] => false
  | (k2, v2) :: rest => if k == k2 then pyEq v v2 else pyEqFind k v rest
termination_by sizeOf v + sizeOf other
decreasing_by all_goals (simp_wf; try omega)

end

/-- Python `len(x)` on the values that support it. -/
def pyLen : PyVal → Except PyErr Int
  | PyVal.str s => Except.ok ((s.length : Int))
  | PyVal.lst xs => Except.ok ((xs.length : Int))
  | PyVal.tup xs => Except.ok ((xs.length : Int))
  | PyVal.dict kvs => Except.ok ((kvs.length : Int))
  | _ => Except.error (PyErr.typeError "object has no len")

/-- Sequence indexing with Python semantics: a negative index counts from
the end, and anything out of range is absent. -/
def pyIndex {a : Type} (xs : List a) (i : Int) : Option a :=
  let j := if i < 0 then i + (xs.length : Int) else i
  if 0 ≤ j ∧ j < (xs.length : Int) then xs.get? j.toNat else none

/-- Python sequence indexing `x[i]` with negative-index wraparound, on the
values whose `__getitem__` takes an integer. -/
def pyGetItem : PyVal → Int → Except PyErr PyVal
  | PyVal.lst xs, i =>
    match pyIndex xs i with
    | some v => Except.ok v
    | none => Except.error (PyErr.indexError "list index out of range")
  | PyVal.tup xs, i =>
    match pyIndex xs i with
    | some v => Except.ok v
    | none => Except.error (PyErr.indexError "tuple index out of range")
  | PyVal.str s, i =>
    match pyIndex s.data i with
    | some c => Except.ok (PyVal.str (String.mk [c]))
    | none => Except.error (PyErr.indexError "string index out of range")
  | PyVal.dict _, _ => Except.error (PyErr.keyError "key not found")
  | _, _ => Except.error (PyErr.typeError "object is not subscriptable")

/-- Python `x.append(v)`, defined on lists only. -/
def pyAppend : PyVal → PyVal → Except PyErr PyVal
  | PyVal.lst xs, v => Except.ok (PyVal.lst (xs ++ [v]))
  | _, _ => Except.error (PyErr.attributeError "object has no attribute append")

/-- Lookup in an insertion-ordered association list (Python `d.get(k)`). -/
def assocGet : List (String × PyVal) → String → Option PyVal
  | [], _ => none
  | (k, v) :: kvs, key => if k = key then some v else assocGet kvs key

/-- Assignment `d[k] = v` on an insertion-ordered association list: an
existing key keeps its position, a new key is appended at the end. -/
def assocSet : List (String × PyVal) → String → PyVal → List (String × PyVal)
  | [], key, v => [(key, v)]
  | (k, w) :: kvs, key, v =>
    if k = key then (k, v) :: kvs else (k, w) :: assocSet kvs key v

/-- The date key `"{}-{}-{}".format(year, month, day)` of
daily_event_monitor.py line 126: no zero padding. -/
def dateKey (year month day : Int) : String :=
  toString year ++ "-" ++ toString month ++ "-" ++ toString day

/-- Contents of one file of the modelled file system: `absent` when opening
raises, `invalid` when the bytes do not parse as JSON, `json v` when they
parse to the value v. -/
inductive FileContent where
  | absent : FileContent
  | invalid : FileContent
  | json : PyVal → FileContent

/-- The file system: a map from path strings to file contents. -/
def FS : Type := String → FileContent

/-- A file system with no readable files. -/
def fsEmpty : FS := fun _ => FileContent.absent

/-- Overwrite one path of the file system. -/
def fsWrite (fs : FS) (path : String) (c : FileContent) : FS :=
  fun p => if p = path then c else fs p

mutual

/-- What `json.loads(json.dumps(v))` returns for a value of our universe:
tuples are serialized as JSON arrays and parsed back as lists; everything
else round-trips unchanged. -/
def toJsonVal : PyVal → PyVal
  | PyVal.null => PyVal.null
  | PyVal.bool b => PyVal.bool b
  | PyVal.int n => PyVal.int n
  | PyVal.str s => PyVal.str s
  | PyVal.lst xs => PyVal.lst (toJsonList xs)
  | PyVal.tup xs => PyVal.lst (toJsonList xs)
  | PyVal.dict kvs => PyVal.dict (toJsonKVs kvs)

/-- toJsonVal mapped over a list of values. -/
def toJsonList : List PyVal → List PyVal
  | [] => []
  | x :: xs => toJsonVal x :: toJsonList xs

/-- toJsonVal mapped over the values of an association list. -/
def toJsonKVs : List (String × PyVal) → List (String × PyVal)
  | [] => []
  | (k, v) :: kvs => (k, toJsonVal v) :: toJsonKVs kvs

end

/-- The DailyEventMonitor class of daily_event_monitor.py (the EventMonitor
class of script.py is the same data structure): the instance attributes
_data and _filename. -/
structure DailyEventMonitor where
  _data : PyVal
  _filename : Option String

/-- A freshly constructed monitor, `DailyEventMonitor()` with no arguments:
_data is an empty dict and _filename is None (lines 103 and 104). -/
def DailyEventMonitor.new : DailyEventMonitor :=
  { _data := PyVal.dict [], _filename := none }

/-- The `data` property (lines 237 to 244): `copy.deepcopy(self._data)`.
On pure values a deep copy is the value itself; the heap development below
(Heap namespace) verifies that the deep copy is independent of the
original, which is what justifies this identity. -/
def DailyEventMonitor.data (m : DailyEventMonitor) : PyVal :=
  m._data

/-- The `file_path` property (lines 228 to 235). -/
def DailyEventMonitor.file_path (m : DailyEventMonitor) : Option String :=
  m._filename

/-- `_lookup_day` (lines 112 to 128): resets _data to an empty dict when it
is None, computes the date key, runs `self._data[key] = self._data.get(key,
list())`, and returns the day's sequence.  Calling `.get` on a non-dict,
non-None value raises AttributeError, as in Python. -/
def DailyEventMonitor.lookup_day (m : DailyEventMonitor) (year month day : Int) :
    Except PyErr (PyVal × DailyEventMonitor) :=
  let key := dateKey year month day
  match m._data with
  | PyVal.null =>
    Except.ok (PyVal.lst [], { m with _data := PyVal.dict [(key, PyVal.lst [])] })
  | PyVal.dict kvs =>
    let v := (assocGet kvs key).getD (PyVal.lst [])
    Except.ok (v, { m with _data := PyVal.dict (assocSet kvs key v) })
  | _ => Except.error (PyErr.attributeError "object has no attribute get")

/-- `get` (lines 130 to 141): delegates to `_lookup_day`.  The source
returns only the day's sequence; the mutated monitor is returned alongside
because the lookup inserts the key as a side effect. -/
def DailyEventMonitor.get (m : DailyEventMonitor) (year month day : Int) :
    Except PyErr (PyVal × DailyEventMonitor) :=
  m.lookup_day year month day

/-- Write a day's sequence back into the dict.  This models the in-place
mutation of the list object returned by `_lookup_day`, which is aliased by
the dict slot; the non-dict fallback is unreachable after a successful
lookup. -/
def DailyEventMonitor.setDay (m : DailyEventMonitor) (key : String) (v : PyVal) :
    DailyEventMonitor :=
  match m._data with
  | PyVal.dict kvs => { m with _data := PyVal.dict (assocSet kvs key v) }
  | _ => m

/-- `add` (lines 143 to 168).  `now` is the string `time_now()` would
render at the moment of the call.  Mirrors the source: look the day up
(inserting an empty list if needed), and unless `ignore_repeat` is set and
the day is non-empty and `data[-1][1] == value`, append the tuple
`(time_now(), value)` and return True; otherwise return False. -/
def DailyEventMonitor.add (m : DailyEventMonitor) (now : String)
    (year month day : Int) (value : PyVal) (ignore_repeat : Bool) :
    Except PyErr (Bool × DailyEventMonitor) :=
  match m.lookup_day year month day with
  | Except.error e => Except.error e
  | Except.ok (dataDay, m1) =>
    match
      (if ignore_repeat then
        match pyLen dataDay with
        | Except.error e => Except.error e
        | Except.ok n =>
          if 0 < n then
            match pyGetItem dataDay (-1) with
            | Except.error e => Except.error e
            | Except.ok lastEv =>
              match pyGetItem lastEv 1 with
              | Except.error e => Except.error e
              | Except.ok lastVal => Except.ok (pyEq lastVal value)
          else Except.ok false
      else Except.ok false : Except PyErr Bool) with
    | Except.error e => Except.error e
    | Except.ok skip =>
      if skip then Except.ok (false, m1)
      else
        match pyAppend dataDay (PyVal.tup [PyVal.str now, value]) with
        | Except.error e => Except.error e
        | Except.ok newDay =>
          Except.ok (true, m1.setDay (dateKey year month day) newDay)

/-- The resolution `filename or self._filename` of lines 194 and 217:
Python's `or` falls through both on None and on the empty string, which is
falsy. -/
def orFilename (arg : Option String) (stored : Option String) : Option String :=
  match arg with
  | some s => if s = "" then stored else some s
  | none => stored

/-- `load` (lines 187 to 209): raises ValueError when no filename is
available, otherwise records the filename, then returns True and replaces
_data wholesale when the file reads and parses, and returns False on any
read or parse failure, leaving _data untouched. -/
def DailyEventMonitor.load (m : DailyEventMonitor) (fs : FS)
    (filename : Option String) : Except PyErr (Bool × DailyEventMonitor) :=
  match orFilename filename m._filename with
  | none => Except.error (PyErr.valueError "no filename available!")
  | some f =>
    match fs f with
    | FileContent.absent => Except.ok (false, { m with _filename := some f })
    | FileContent.invalid => Except.ok (false, { m with _filename := some f })
    | FileContent.json v =>
      Except.ok (true, { m with _data := v, _filename := some f })

/-- `save` (lines 211 to 226): raises ValueError when no filename is
available, otherwise writes `json.dumps(self._data)` to the path (the
directory creation of line 222 is a no-op on the modelled file system) and
records the filename. -/
def DailyEventMonitor.save (m : DailyEventMonitor) (fs : FS)
    (filename : Option String) : Except PyErr (DailyEventMonitor × FS) :=
  match orFilename filename m._filename with
  | none => Except.error (PyErr.valueError "no filename available!")
  | some f =>
    Except.ok ({ m with _filename := some f },
      fsWrite fs f (FileContent.json (toJsonVal m._data)))

/-- True on the values `_lookup_day` accepts without raising: a dict, or
None (which it silently replaces by an empty dict). -/
def isMappingState : PyVal → Bool
  | PyVal.null => true
  | PyVal.dict _ => true
  | _ => false

/-- A primitive (scalar) stored event value: the program stores headline
strings or open-slot counts. -/
def isPrim : PyVal → Bool
  | PyVal.null => true
  | PyVal.bool _ => true
  | PyVal.int _ => true
  | PyVal.str _ => true
  | _ => false

/-- An event record as the monitor creates it (a (timestamp, value) tuple)
or as a load brings it back (a two-element list), with a scalar value. -/
def isEventVal : PyVal → Bool
  | PyVal.tup [PyVal.str _, v] => isPrim v
  | PyVal.lst [PyVal.str _, v] => isPrim v
  | _ => false

/-- A day's entry: an ordered list of event records. -/
def isDayVal : PyVal → Bool
  | PyVal.lst evs => evs.all isEventVal
  | _ => false

/-- Well-formed monitor data as described by the spec's data model: None,
or a date-keyed dict of ordered event lists.  Every state reachable from
the constructor by add calls and loads of files the program itself saved
satisfies this. -/
def WFData : PyVal → Bool
  | PyVal.null => true
  | PyVal.dict kvs => kvs.all (fun kv => isDayVal kv.2)
  | _ => false

/-- The day sequence stored under a key, as a Lean list ([] when the key is
absent or the state is not a dict of lists). -/
def DailyEventMonitor.dayEvents (m : DailyEventMonitor) (key : String) : List PyVal :=
  match m._data with
  | PyVal.dict kvs =>
    match assocGet kvs key with
    | some (PyVal.lst evs) => evs
    | _ => []
  | _ => []

/-- The stored value of an event record (its second component). -/
def evVal : PyVal → PyVal
  | PyVal.tup [_, v] => v
  | PyVal.lst [_, v] => v
  | _ => PyVal.null

/-- Lookup in a dict value directly. -/
def mapLookup : PyVal → String → Option PyVal
  | PyVal.dict kvs, k => assocGet kvs k
  | _, _ => none

/-- Leap year as the Gregorian calendar (and Python's datetime) defines it. -/
def isLeap (y : Int) : Bool :=
  y % 4 = 0 && (y % 100 ≠ 0 || y % 400 = 0)

/-- Days in a month of a given year. -/
def daysInMonth (y m : Int) : Int :=
  if m = 1 ∨ m = 3 ∨ m = 5 ∨ m = 7 ∨ m = 8 ∨ m = 10 ∨ m = 12 then 31
  else if m = 4 ∨ m = 6 ∨ m = 9 ∨ m = 11 then 30
  else if m = 2 then (if isLeap y then 29 else 28)
  else 0

/-- The triples `datetime.datetime(year=y, month=m, day=d)` accepts: years
between MINYEAR = 1 and MAXYEAR = 9999, months 1 to 12, days 1 to the
month's length.  On anything else the constructor raises ValueError. -/
def isValidYMD (y m d : Int) : Bool :=
  1 ≤ y && y ≤ 9999 && 1 ≤ m && m ≤ 12 && 1 ≤ d && d ≤ daysInMonth y m

/-- The calendar successor of a valid date, before the range check. -/
def nextYMDcore (y m d : Int) : Int × Int × Int :=
  if d < daysInMonth y m then (y, m, d + 1)
  else if m < 12 then (y, m + 1, 1)
  else (y + 1, 1, 1)

/-- The calendar predecessor of a valid date, before the range check. -/
def prevYMDcore (y m d : Int) : Int × Int × Int :=
  if 1 < d then (y, m, d - 1)
  else if 1 < m then (y, m - 1, daysInMonth y (m - 1))
  else (y - 1, 12, 31)

/-- Semantics of `date + datetime.timedelta(hours=24)` on a naive datetime:
the next calendar day, except that stepping past datetime.max =
(9999, 12, 31) raises OverflowError. -/
def addOneDay (y m d : Int) : Except PyErr (Int × Int × Int) :=
  if y = 9999 ∧ m = 12 ∧ d = 31 then
    Except.error (PyErr.overflowError "date value out of range")
  else Except.ok (nextYMDcore y m d)

/-- Semantics of `date + datetime.timedelta(hours=-24)`: the previous
calendar day, except that stepping before datetime.min = (1, 1, 1) raises
OverflowError. -/
def subOneDay (y m d : Int) : Except PyErr (Int × Int × Int) :=
  if y = 1 ∧ m = 1 ∧ d = 1 then
    Except.error (PyErr.overflowError "date value out of range")
  else Except.ok (prevYMDcore y m d)

/-- `prev_day` (daily_event_monitor.py lines 37 to 58, identically
script.py lines 33 to 41): construct the datetime, returning None if that
raises ValueError, then subtract 24 hours and decompose.  Only the
constructor is inside the try block, so the OverflowError of the
subtraction escapes. -/
def prev_day (year month day : Int) : Except PyErr (Option (Int × Int × Int)) :=
  if isValidYMD year month day then
    (subOneDay year month day).map some
  else Except.ok none

/-- `next_day` (daily_event_monitor.py lines 61 to 82, identically
script.py lines 44 to 52): symmetric, adds 24 hours. -/
def next_day (year month day : Int) : Except PyErr (Option (Int × Int × Int)) :=
  if isValidYMD year month day then
    (addOneDay year month day).map some
  else Except.ok none

/-- script.py line 15. -/
def HOPEWELL_QUARRY_MAX_OPEN : Int := 300

/-- Outcome of running the scanner loop with a given amount of fuel. -/
inductive LoopOutcome where
  | fuelOut : LoopOutcome
  | raised : PyErr → LoopOutcome
  | done : DailyEventMonitor → LoopOutcome

/-- The loop body state stepper for `update_hopewell_quarry_data`
(script.py lines 211 to 236).  `q` is the remote query
`lookup_hopewell_quarry`, returning the open-slot count for a date or None
when the request fails or returns no data; `now` is the timestamp string
rendered at append time.  The loop is modelled with fuel: each iteration
checks `contiguous_unbooked < 2` first, then queries; a None query advances
to the next day without recording or counting; otherwise the counter is
bumped when the count equals HOPEWELL_QUARRY_MAX_OPEN, the count is
recorded via add (script.py's EventMonitor.add always suppresses repeats,
like DailyEventMonitor.add with ignore_repeat = True), and the scan
advances. -/
def update_hopewell_quarry_data
    (q : Int × Int × Int → Option Int) (now : String) :
    Nat → Int × Int × Int → Nat → DailyEventMonitor → LoopOutcome
  | 0, _, _, _ => LoopOutcome.fuelOut
  | fuel + 1, (year, month, day), contiguous_unbooked, data =>
    if contiguous_unbooked < 2 then
      match q (year, month, day) with
      | none =>
        match next_day year month day with
        | Except.ok (some ymd) =>
          update_hopewell_quarry_data q now fuel ymd contiguous_unbooked data
        | Except.ok none => LoopOutcome.raised (PyErr.typeError "cannot unpack None")
        | Except.error e => LoopOutcome.raised e
      | some query_open =>
        let cu :=
          if query_open = HOPEWELL_QUARRY_MAX_OPEN then contiguous_unbooked + 1
          else contiguous_unbooked
        match data.add now year month day (PyVal.int query_open) true with
        | Except.error e => LoopOutcome.raised e
        | Except.ok (_, data1) =>
          match next_day year month day with
          | Except.ok (some ymd) =>
            update_hopewell_quarry_data q now fuel ymd cu data1
          | Except.ok none => LoopOutcome.raised (PyErr.typeError "cannot unpack None")
          | Except.error e => LoopOutcome.raised e
    else LoopOutcome.done data

/-- Modelled from the spec's words for comparison with the source: the same
loop but tracking consecutive max-open days, resetting the counter to zero
on a day whose count differs from the maximum ("a counter of consecutive
days where the open-slot count equals a configured maximum"). -/
def update_hopewell_quarry_data_consecutive_spec
    (q : Int × Int × Int → Option Int) (now : String) :
    Nat → Int × Int × Int → Nat → DailyEventMonitor → LoopOutcome
  | 0, _, _, _ => LoopOutcome.fuelOut
  | fuel + 1, (year, month, day), contiguous_unbooked, data =>
    if contiguous_unbooked < 2 then
      match q (year, month, day) with
      | none =>
        match next_day year month day with
        | Except.ok (some ymd) =>
          update_hopewell_quarry_data_consecutive_spec q now fuel ymd contiguous_unbooked data
        | Except.ok none => LoopOutcome.raised (PyErr.typeError "cannot unpack None")
        | Except.error e => LoopOutcome.raised e
      | some query_open =>
        let cu :=
          if query_open = HOPEWELL_QUARRY_MAX_OPEN then contiguous_unbooked + 1
          else 0
        match data.add now year month day (PyVal.int query_open) true with
        | Except.error e => LoopOutcome.raised e
        | Except.ok (_, data1) =>
          match next_day year month day with
          | Except.ok (some ymd) =>
            update_hopewell_quarry_data_consecutive_spec q now fuel ymd cu data1
          | Except.ok none => LoopOutcome.raised (PyErr.typeError "cannot unpack None")
          | Except.error e => LoopOutcome.raised e
    else LoopOutcome.done data

namespace Heap

/-- A heap object: primitive (immutable) values are stored inline, while
lists, tuples and dicts hold the addresses of their elements.  This is the
object-graph view of the same data, used to verify the `copy.deepcopy`
calls of daily_event_monitor.py lines 107 and 244. -/
inductive Obj where
  | prim : PyVal → Obj
  | lst : List Nat → Obj
  | tup : List Nat → Obj
  | dict : List (String × Nat) → Obj

/-- The heap: a list of bindings from addresses to objects, together with
the next fresh address. -/
structure Store where
  mem : List (Nat × Obj)
  next : Nat

/-- Find the first binding of an address. -/
def assocFind : List (Nat × Obj) → Nat → Option Obj
  | [], _ => none
  | (k, o) :: rest, a => if k = a then some o else assocFind rest a

/-- Dereference an address. -/
def lookupA (s : Store) (a : Nat) : Option Obj :=
  assocFind s.mem a

/-- Replace the first binding of an address, if any. -/
def assocUpdate : List (Nat × Obj) → Nat → Obj → List (Nat × Obj)
  | [], _, _ => []
  | (k, w) :: rest, a, o =>
    if k = a then (k, o) :: rest else (k, w) :: assocUpdate rest a o

/-- Replace the object stored at an existing address (the model of an
in-place mutation of a list or dict). -/
def updateA (s : Store) (a : Nat) (o : Obj) : Store :=
  { s with mem := assocUpdate s.mem a o }

/-- Allocate a fresh address holding the object. -/
def alloc (s : Store) (o : Obj) : Store × Nat :=
  ({ mem := s.mem ++ [(s.next, o)], next := s.next + 1 }, s.next)

/-- Every address an object refers to lies below the bound. -/
def refsBelow (o : Obj) (n : Nat) : Bool :=
  match o with
  | Obj.prim _ => true
  | Obj.lst as => as.all (fun b => decide (b < n))
  | Obj.tup as => as.all (fun b => decide (b < n))
  | Obj.dict kvs => kvs.all (fun kv => decide (kv.2 < n))

/-- A well-formed store: every bound address and every referenced address
lies below `next`. -/
def WFStore (s : Store) : Bool :=
  s.mem.all (fun e => decide (e.1 < s.next) && refsBelow e.2 s.next)

mutual

/-- The pure value rooted at an address, computed with fuel (so that the
function is total even on cyclic heaps). -/
def readV : Nat → Store → Nat → Option PyVal
  | 0, _, _ => none
  | n + 1, s, a =>
    match lookupA s a with
    | none => none
    | some (Obj.prim v) => some v
    | some (Obj.lst as) => (readL n s as).map PyVal.lst
    | some (Obj.tup as) => (readL n s as).map PyVal.tup
    | some (Obj.dict kvs) => (readKV n s kvs).map PyVal.dict

/-- readV over a list of addresses. -/
def readL : Nat → Store → List Nat → Option (List PyVal)
  | _, _, [] => some []
  | 0, _, _ :: _ => none
  | n + 1, s, a :: as =>
    match readV n s a, readL n s as with
    | some v, some vs => some (v :: vs)
    | _, _ => none

/-- readV over the values of a keyed list of addresses. -/
def readKV : Nat → Store → List (String × Nat) → Option (List (String × PyVal))
  | _, _, [] => some []
  | 0, _, _ :: _ => none
  | n + 1, s, kv :: kvs =>
    match readV n s kv.2, readKV n s kvs with
    | some v, some vs => some ((kv.1, v) :: vs)
    | _, _ => none

end

mutual

/-- The addresses visited while reading the value rooted at an address,
with the same traversal (and fuel discipline) as readV. -/
def reachV : Nat → Store → Nat → Option (List Nat)
  | 0, _, _ => none
  | n + 1, s, a =>
    match lookupA s a with
    | none => none
    | some (Obj.prim _) => some [a]
    | some (Obj.lst as) => (reachL n s as).map (fun L => a :: L)
    | some (Obj.tup as) => (reachL n s as).map (fun L => a :: L)
    | some (Obj.dict kvs) => (reachL n s (kvs.map Prod.snd)).map (fun L => a :: L)

/-- reachV over a list of addresses, concatenated. -/
def reachL : Nat → Store → List Nat → Option (List Nat)
  | _, _, [] => some []
  | 0, _, _ :: _ => none
  | n + 1, s, a :: as =>
    match reachV n s a, reachL n s as with
    | some L, some M => some (L ++ M)
    | _, _ => none

end

mutual

/-- `copy.deepcopy`, modelled on tree-shaped object graphs (the monitor's
data is a tree): recursively copy the children, then allocate a fresh node.
Fuel makes the recursion total; None means the fuel ran out or an address
was dangling. -/
def copyV : Nat → Store → Nat → Option (Store × Nat)
  | 0, _, _ => none
  | n + 1, s, a =>
    match lookupA s a with
    | none => none
    | some (Obj.prim v) => some (alloc s (Obj.prim v))
    | some (Obj.lst as) =>
      match copyL n s as with
      | some (s1, as1) => some (alloc s1 (Obj.lst as1))
      | none => none
    | some (Obj.tup as) =>
      match copyL n s as with
      | some (s1, as1) => some (alloc s1 (Obj.tup as1))
      | none => none
    | some (Obj.dict kvs) =>
      match copyKV n s kvs with
      | some (s1, kvs1) => some (alloc s1 (Obj.dict kvs1))
      | none => none

/-- copyV over a list of addresses, threading the store. -/
def copyL : Nat → Store → List Nat → Option (Store × List Nat)
  | _, s, [] => some (s, [])
  | 0, _, _ :: _ => none
  | n + 1, s, a :: as =>
    match copyV n s a with
    | some (s1, a1) =>
      match copyL n s1 as with
      | some (s2, as2) => some (s2, a1 :: as2)
      | none => none
    | none => none

/-- copyV over the values of a keyed list, threading the store. -/
def copyKV : Nat → Store → List (String × Nat) →
    Option (Store × List (String × Nat))
  | _, s, [] => some (s, [])
  | 0, _, _ :: _ => none
  | n + 1, s, kv :: kvs =>
    match copyV n s kv.2 with
    | some (s1, a1) =>
      match copyKV n s1 kvs with
      | some (s2, kvs2) => some (s2, (kv.1, a1) :: kvs2)
      | none => none
    | none => none

end

/-- Store extension: every address readable in the first store reads the
same object in the second.  Allocation only extends a store. -/
def Ext (s s2 : Store) : Prop :=
  ∀ a o, lookupA s a = some o → lookupA s2 a = some o

/-- The deep copy performed by the `data` accessor
(`return copy.deepcopy(self._data)`, line 244) and by the constructor for
an explicit initial mapping (`self._data = copy.deepcopy(data)`, line
107). -/
def deepcopy : Nat → Store → Nat → Option (Store × Nat) := copyV

end Heap


/-- The (timestamp, value) view of a well-formed event record, blind to
whether the record is a tuple (in memory) or a list (reloaded). -/
def viewEvent : PyVal → Option (String × PyVal)
  | PyVal.tup [PyVal.str t, v] => some (t, v)
  | PyVal.lst [PyVal.str t, v] => some (t, v)
  | _ => none

/-- viewEvent over a day's sequence. -/
def viewEvents : List PyVal → Option (List (String × PyVal))
  | [] => some []
  | ev :: evs =>
    match viewEvent ev, viewEvents evs with
    | some p, some ps => some (p :: ps)
    | _, _ => none

/-- The event view of one day's stored value. -/
def viewDay : PyVal → Option (List (String × PyVal))
  | PyVal.lst evs => viewEvents evs
  | _ => none

/-- viewDay over the date-keyed entries. -/
def viewDays : List (String × PyVal) → Option (List (String × List (String × PyVal)))
  | [] => some []
  | (k, v) :: kvs =>
    match viewDay v, viewDays kvs with
    | some l, some ls => some ((k, l) :: ls)
    | _, _ => none

/-- The ordered (date key, events) view of a monitor's data: the keys in
insertion order, each with its ordered (timestamp, value) pairs. -/
def eventsView : PyVal → Option (List (String × List (String × PyVal)))
  | PyVal.dict kvs => viewDays kvs
  | _ => none

/-- The timestamp used by the concrete round-trip computation. -/
def tsEx : String := "2024-03-05 10:00AM"

/-- The monitor holding one event, produced by one add on a fresh
monitor. -/
def rtA : DailyEventMonitor :=
  match DailyEventMonitor.new.add tsEx 2024 3 5 (PyVal.str "A") true with
  | Except.ok (_, m) => m
  | Except.error _ => DailyEventMonitor.new

/-- The file system after saving rtA to "out.json". -/
def rtFS : FS :=
  match rtA.save fsEmpty (some "out.json") with
  | Except.ok (_, fs) => fs
  | Except.error _ => fsEmpty

/-- A fresh monitor after loading "out.json" back. -/
def rtB : DailyEventMonitor :=
  match DailyEventMonitor.new.load rtFS (some "out.json") with
  | Except.ok (_, m) => m
  | Except.error _ => DailyEventMonitor.new

/-- The remote query results used to exercise the scanner loop: the
configured maximum (300 open slots) on 2024-03-05, a partially booked day
(250) on 2024-03-06, then the maximum again on 2024-03-07 and
2024-03-08, and partially booked days afterwards. -/
def qScan : Int × Int × Int → Option Int := fun ymd =>
  if ymd = (2024, 3, 5) then some 300
  else if ymd = (2024, 3, 6) then some 250
  else if ymd = (2024, 3, 7) then some 300
  else if ymd = (2024, 3, 8) then some 300
  else some 250

/-- The date keys recorded by a finished scanner run. -/
def scanKeys : LoopOutcome → List String
  | LoopOutcome.done m =>
    match m._data with
    | PyVal.dict kvs => kvs.map (fun kv => kv.1)
    | _ => []
  | LoopOutcome.fuelOut => []
  | LoopOutcome.raised _ => []

/-- A concrete heap holding one monitor data dict
{"2024-3-5": [("t", "A")]} rooted at address 0. -/
def heapStoreEx : Heap.Store :=
  { mem := [(0, Heap.Obj.dict [("2024-3-5", 1)]), (1, Heap.Obj.lst [2]),
      (2, Heap.Obj.tup [3, 4]), (3, Heap.Obj.prim (PyVal.str "t")),
      (4, Heap.Obj.prim (PyVal.str "A"))], next := 5 }

/-- The result of deep-copying the concrete heap's root. -/
def heapCopyEx : Heap.Store × Nat :=
  match Heap.deepcopy 10 heapStoreEx 0 with
  | some pr => pr
  | none => (heapStoreEx, 0)

/-- The pure value stored in the concrete heap. -/
def heapValEx : PyVal :=
  PyVal.dict [("2024-3-5", PyVal.lst [PyVal.tup [PyVal.str "t", PyVal.str "A"]])]

/-- Unfolds the validity test into arithmetic. -/
theorem isValidYMD_iff (y m d : Int) :
    isValidYMD y m d = true ↔
      1 ≤ y ∧ y ≤ 9999 ∧ 1 ≤ m ∧ m ≤ 12 ∧ 1 ≤ d ∧ d ≤ daysInMonth y m := by
  unfold isValidYMD
  simp only [Bool.and_eq_true, decide_eq_true_eq]
  tauto

/-- Every month of the calendar has between 28 and 31 days. -/
theorem daysInMonth_bounds (y m : Int) (h1 : 1 ≤ m) (h2 : m ≤ 12) :
    28 ≤ daysInMonth y m ∧ daysInMonth y m ≤ 31 := by
  unfold daysInMonth
  split_ifs <;> omega

/-- December has 31 days. -/
theorem daysInMonth_dec (y : Int) : daysInMonth y 12 = 31 := by
  unfold daysInMonth
  norm_num

/-- C8: for every integer triple that is not a valid calendar date,
prev_day and next_day return None (an absent result) without raising. -/
theorem invalid_date_returns_none (y m d : Int)
    (h : isValidYMD y m d = false) :
    prev_day y m d = Except.ok none ∧ next_day y m d = Except.ok none := by
  unfold prev_day next_day
  rw [h]
  simp

/-- Witness for invalid_date_returns_none at month 13. -/
theorem invalid_date_returns_none_witness :
    prev_day 2024 13 1 = Except.ok none ∧ next_day 2024 13 1 = Except.ok none :=
  invalid_date_returns_none 2024 13 1 (by decide)


/-- The calendar successor of a valid date below datetime.max is valid. -/
theorem nextYMDcore_valid (y m d : Int) (hv : isValidYMD y m d = true)
    (hmax : ¬(y = 9999 ∧ m = 12 ∧ d = 31)) :
    isValidYMD (nextYMDcore y m d).1 (nextYMDcore y m d).2.1
      (nextYMDcore y m d).2.2 = true := by
  rw [isValidYMD_iff] at hv
  obtain ⟨h1, h2, h3, h4, h5, h6⟩ := hv
  unfold nextYMDcore
  split_ifs with hd hm
  all_goals dsimp only
  all_goals rw [isValidYMD_iff]
  · exact ⟨h1, h2, h3, h4, by omega, by omega⟩
  · have hb := daysInMonth_bounds y (m + 1) (by omega) (by omega)
    exact ⟨h1, h2, by omega, by omega, by omega, by omega⟩
  · have hm12 : m = 12 := by omega
    have hd31 : d = 31 := by
      have hb := daysInMonth_bounds y m h3 h4
      rw [hm12, daysInMonth_dec] at h6 hd
      omega
    have hy : y ≠ 9999 := by
      intro hy
      exact hmax ⟨hy, hm12, hd31⟩
    have hb := daysInMonth_bounds (y + 1) 1 (by omega) (by omega)
    exact ⟨by omega, by omega, by omega, by omega, by omega, by omega⟩

/-- The calendar predecessor of a valid date above datetime.min is valid. -/
theorem prevYMDcore_valid (y m d : Int) (hv : isValidYMD y m d = true)
    (hmin : ¬(y = 1 ∧ m = 1 ∧ d = 1)) :
    isValidYMD (prevYMDcore y m d).1 (prevYMDcore y m d).2.1
      (prevYMDcore y m d).2.2 = true := by
  rw [isValidYMD_iff] at hv
  obtain ⟨h1, h2, h3, h4, h5, h6⟩ := hv
  unfold prevYMDcore
  split_ifs with hd hm
  all_goals dsimp only
  all_goals rw [isValidYMD_iff]
  · have hb := daysInMonth_bounds y m h3 h4
    exact ⟨h1, h2, h3, h4, by omega, by omega⟩
  · have hb := daysInMonth_bounds y (m - 1) (by omega) (by omega)
    exact ⟨h1, h2, by omega, by omega, by omega, by omega⟩
  · have hm1 : m = 1 := by omega
    have hd1 : d = 1 := by omega
    have hy : y ≠ 1 := by
      intro hy
      exact hmin ⟨hy, hm1, hd1⟩
    refine ⟨by omega, by omega, by omega, by omega, by omega, ?_⟩
    rw [daysInMonth_dec]

/-- Stepping forward then backward returns to the same valid date. -/
theorem prev_next_core (y m d : Int) (hv : isValidYMD y m d = true) :
    prevYMDcore (nextYMDcore y m d).1 (nextYMDcore y m d).2.1
      (nextYMDcore y m d).2.2 = (y, m, d) := by
  rw [isValidYMD_iff] at hv
  obtain ⟨h1, h2, h3, h4, h5, h6⟩ := hv
  unfold nextYMDcore
  split_ifs with hd hm
  all_goals dsimp only
  all_goals unfold prevYMDcore
  · rw [if_pos (by omega : (1 : Int) < d + 1)]
    have e1 : d + 1 - 1 = d := by ring
    rw [e1]
  · rw [if_neg (by omega : ¬(1 : Int) < 1), if_pos (by omega : (1 : Int) < m + 1)]
    have e1 : m + 1 - 1 = m := by ring
    rw [e1]
    have e2 : d = daysInMonth y m := by omega
    rw [e2]
  · have hm12 : m = 12 := by omega
    have hd31 : d = 31 := by
      have hb := daysInMonth_bounds y m h3 h4
      rw [hm12, daysInMonth_dec] at h6 hd
      omega
    rw [if_neg (by omega : ¬(1 : Int) < 1), if_neg (by omega : ¬(1 : Int) < 1)]
    have e1 : y + 1 - 1 = y := by ring
    rw [e1, hm12, hd31]

/-- Stepping backward then forward returns to the same valid date. -/
theorem next_prev_core (y m d : Int) (hv : isValidYMD y m d = true) :
    nextYMDcore (prevYMDcore y m d).1 (prevYMDcore y m d).2.1
      (prevYMDcore y m d).2.2 = (y, m, d) := by
  rw [isValidYMD_iff] at hv
  obtain ⟨h1, h2, h3, h4, h5, h6⟩ := hv
  unfold prevYMDcore
  split_ifs with hd hm
  all_goals dsimp only
  all_goals unfold nextYMDcore
  · rw [if_pos (by omega : d - 1 < daysInMonth y m)]
    have e1 : d - 1 + 1 = d := by ring
    rw [e1]
  · rw [if_neg (by omega : ¬daysInMonth y (m - 1) < daysInMonth y (m - 1)),
      if_pos (by omega : m - 1 < 12)]
    have e1 : m - 1 + 1 = m := by ring
    rw [e1]
    have hd1 : d = 1 := by omega
    rw [hd1]
  · have hm1 : m = 1 := by omega
    have hd1 : d = 1 := by omega
    rw [daysInMonth_dec]
    rw [if_neg (by omega : ¬(31 : Int) < 31), if_neg (by omega : ¬(12 : Int) < 12)]
    have e1 : y - 1 + 1 = y := by ring
    rw [e1, hm1, hd1]

/-- The calendar predecessor of a valid date is never datetime.max. -/
theorem prevYMDcore_ne_max (y m d : Int) (hv : isValidYMD y m d = true) :
    ¬((prevYMDcore y m d).1 = 9999 ∧ (prevYMDcore y m d).2.1 = 12 ∧
      (prevYMDcore y m d).2.2 = 31) := by
  rw [isValidYMD_iff] at hv
  obtain ⟨h1, h2, h3, h4, h5, h6⟩ := hv
  have hb := daysInMonth_bounds y m h3 h4
  unfold prevYMDcore
  split_ifs with hd hm
  all_goals dsimp only
  · omega
  · omega
  · omega

/-- The calendar successor of a valid date is never datetime.min. -/
theorem nextYMDcore_ne_min (y m d : Int) (hv : isValidYMD y m d = true) :
    ¬((nextYMDcore y m d).1 = 1 ∧ (nextYMDcore y m d).2.1 = 1 ∧
      (nextYMDcore y m d).2.2 = 1) := by
  rw [isValidYMD_iff] at hv
  obtain ⟨h1, h2, h3, h4, h5, h6⟩ := hv
  unfold nextYMDcore
  split_ifs with hd hm
  all_goals dsimp only
  · omega
  · omega
  · omega

/-- C7 counterexample: (1, 1, 1) and (9999, 12, 31) are valid calendar
dates, yet prev_day raises OverflowError on the first and next_day on the
second (the try block of the source guards only the constructor, and only
against ValueError), so the two round-trip compositions are not defined on
every valid date. -/
theorem prev_day_overflow_at_min_date :
    isValidYMD 1 1 1 = true ∧
    prev_day 1 1 1 = Except.error (PyErr.overflowError "date value out of range") ∧
    isValidYMD 9999 12 31 = true ∧
    next_day 9999 12 31 = Except.error (PyErr.overflowError "date value out of range") :=
  ⟨rfl, rfl, rfl, rfl⟩

/-- C7 amended: for every valid calendar date other than datetime.min,
prev_day produces a date that next_day maps back to the original, and
symmetrically for every valid date other than datetime.max; at the two
boundary dates the compositions instead raise OverflowError (see
prev_day_overflow_at_min_date). -/
theorem prev_next_roundtrip_amended (y m d : Int)
    (hv : isValidYMD y m d = true) :
    ((y, m, d) ≠ ((1 : Int), (1 : Int), (1 : Int)) →
      ∃ y2 m2 d2, prev_day y m d = Except.ok (some (y2, m2, d2)) ∧
        next_day y2 m2 d2 = Except.ok (some (y, m, d))) ∧
    ((y, m, d) ≠ ((9999 : Int), (12 : Int), (31 : Int)) →
      ∃ y2 m2 d2, next_day y m d = Except.ok (some (y2, m2, d2)) ∧
        prev_day y2 m2 d2 = Except.ok (some (y, m, d))) := by
  constructor
  · intro hne
    have hmin : ¬(y = 1 ∧ m = 1 ∧ d = 1) := by
      intro h
      exact hne (by rw [h.1, h.2.1, h.2.2])
    refine ⟨(prevYMDcore y m d).1, (prevYMDcore y m d).2.1,
      (prevYMDcore y m d).2.2, ?_, ?_⟩
    · unfold prev_day subOneDay
      rw [hv, if_neg hmin]
      rfl
    · unfold next_day addOneDay
      rw [prevYMDcore_valid y m d hv hmin, if_neg (prevYMDcore_ne_max y m d hv)]
      simp only [Except.map, Except.ok.injEq, Option.some.injEq]
      rw [if_pos trivial]
      simp only [Except.ok.injEq, Option.some.injEq]
      exact next_prev_core y m d hv
  · intro hne
    have hmax : ¬(y = 9999 ∧ m = 12 ∧ d = 31) := by
      intro h
      exact hne (by rw [h.1, h.2.1, h.2.2])
    refine ⟨(nextYMDcore y m d).1, (nextYMDcore y m d).2.1,
      (nextYMDcore y m d).2.2, ?_, ?_⟩
    · unfold next_day addOneDay
      rw [hv, if_neg hmax]
      rfl
    · unfold prev_day subOneDay
      rw [nextYMDcore_valid y m d hv hmax, if_neg (nextYMDcore_ne_min y m d hv)]
      simp only [Except.map, Except.ok.injEq, Option.some.injEq]
      rw [if_pos trivial]
      simp only [Except.ok.injEq, Option.some.injEq]
      exact prev_next_core y m d hv

/-- Witness for prev_next_roundtrip_amended at 2024-03-01, a month
boundary in a leap year. -/
theorem prev_next_roundtrip_amended_witness :
    ∃ y2 m2 d2, prev_day 2024 3 1 = Except.ok (some (y2, m2, d2)) ∧
      next_day y2 m2 d2 = Except.ok (some ((2024 : Int), (3 : Int), (1 : Int))) :=
  (prev_next_roundtrip_amended 2024 3 1 rfl).1 (by decide)

/-- C3 counterexample: with the empty string as the explicit path — a path
whose file is always missing — a fresh monitor's load raises ValueError
instead of returning false, because `filename or self._filename` treats the
falsy empty string like a missing argument. -/
theorem load_empty_path_raises_not_false :
    DailyEventMonitor.new.load fsEmpty (some "") =
      Except.error (PyErr.valueError "no filename available!") := rfl

/-- C3 amended: for every monitor and every non-empty path whose file is
missing, unreadable or unparseable, load returns false, does not raise,
and changes nothing but the remembered filename; in particular the
in-memory mapping is exactly as before the call. -/
theorem load_failure_returns_false_preserves_data
    (m : DailyEventMonitor) (fs : FS) (p : String) (hp : p ≠ "")
    (hfail : fs p = FileContent.absent ∨ fs p = FileContent.invalid) :
    m.load fs (some p) = Except.ok (false, { m with _filename := some p }) := by
  have hres : orFilename (some p) m._filename = some p := by
    simp [orFilename, hp]
  unfold DailyEventMonitor.load
  rw [hres]
  rcases hfail with h | h <;> simp [h]

/-- Witness for load_failure_returns_false_preserves_data on a fresh
monitor and an empty file system. -/
theorem load_failure_returns_false_preserves_data_witness :
    DailyEventMonitor.new.load fsEmpty (some "out.json") =
      Except.ok (false, { DailyEventMonitor.new with _filename := some "out.json" }) :=
  load_failure_returns_false_preserves_data DailyEventMonitor.new fsEmpty
    "out.json" (by decide) (Or.inl rfl)

/-- C9 counterexample: the empty string is an explicit path (save would
target a file literally named "" only through its falsy-or default
resolution), and save on a fresh monitor with that explicit path raises
the ValueError configuration error all the same, because `filename or
self._filename` treats "" like no argument at all. -/
theorem save_empty_string_path_raises :
    DailyEventMonitor.new.save fsEmpty (some "") =
      Except.error (PyErr.valueError "no filename available!") := rfl

/-- C9 amended: a monitor that never recorded a path raises ValueError
from load() and save() called without argument; with an explicit non-empty
path neither raises. -/
theorem load_save_path_configuration_error
    (m : DailyEventMonitor) (fs : FS) (p : String)
    (hnone : m._filename = none) (hp : p ≠ "") :
    m.load fs none = Except.error (PyErr.valueError "no filename available!") ∧
    m.save fs none = Except.error (PyErr.valueError "no filename available!") ∧
    (∃ r, m.load fs (some p) = Except.ok r) ∧
    (∃ r, m.save fs (some p) = Except.ok r) := by
  have hres : orFilename (some p) m._filename = some p := by
    simp [orFilename, hp]
  refine ⟨?_, ?_, ?_, ?_⟩
  · simp [DailyEventMonitor.load, orFilename, hnone]
  · simp [DailyEventMonitor.save, orFilename, hnone]
  · unfold DailyEventMonitor.load
    rw [hres]
    cases h : fs p with
    | absent => exact ⟨(false, { m with _filename := some p }), by simp [h]⟩
    | invalid => exact ⟨(false, { m with _filename := some p }), by simp [h]⟩
    | json v => exact ⟨(true, { m with _data := v, _filename := some p }), by simp [h]⟩
  · unfold DailyEventMonitor.save
    rw [hres]
    exact ⟨_, rfl⟩

/-- Witness for load_save_path_configuration_error on a fresh monitor. -/
theorem load_save_path_configuration_error_witness :
    DailyEventMonitor.new.load fsEmpty none =
      Except.error (PyErr.valueError "no filename available!") ∧
    DailyEventMonitor.new.save fsEmpty none =
      Except.error (PyErr.valueError "no filename available!") ∧
    (∃ r, DailyEventMonitor.new.load fsEmpty (some "out.json") = Except.ok r) ∧
    (∃ r, DailyEventMonitor.new.save fsEmpty (some "out.json") = Except.ok r) :=
  load_save_path_configuration_error DailyEventMonitor.new fsEmpty "out.json"
    rfl (by decide)

/-- The monitor used by the C10 counterexample: it already remembers the
path "a.json". -/
def monitorWithPathA : DailyEventMonitor :=
  { _data := PyVal.dict [], _filename := some "a.json" }

/-- C10 counterexample: calling load with the explicit path "" on a
monitor that remembers "a.json" fails (the file is missing) and returns
false, but records "a.json" — not the explicitly passed path — because the
falsy empty string falls through `filename or self._filename`; a
subsequent no-argument save would target "a.json". -/
theorem load_empty_path_does_not_record :
    monitorWithPathA.load fsEmpty (some "") = Except.ok (false, monitorWithPathA) ∧
    monitorWithPathA._filename ≠ some "" := ⟨rfl, by decide⟩

/-- C10 amended: for every non-empty explicit path p, a failed load still
records p as the monitor's default path, so later no-argument load and
save calls behave exactly like calls passing p. -/
theorem load_records_path_even_on_failure
    (m : DailyEventMonitor) (fs fs2 : FS) (p : String) (hp : p ≠ "")
    (hfail : fs p = FileContent.absent ∨ fs p = FileContent.invalid) :
    ∃ m1, m.load fs (some p) = Except.ok (false, m1) ∧
      m1._filename = some p ∧ m1._data = m._data ∧
      m1.load fs2 none = m1.load fs2 (some p) ∧
      m1.save fs2 none = m1.save fs2 (some p) := by
  refine ⟨{ m with _filename := some p },
    load_failure_returns_false_preserves_data m fs p hp hfail, rfl, rfl, ?_, ?_⟩
  · simp [DailyEventMonitor.load, orFilename, hp]
  · simp [DailyEventMonitor.save, orFilename, hp]

/-- Witness for load_records_path_even_on_failure. -/
theorem load_records_path_even_on_failure_witness :
    ∃ m1, DailyEventMonitor.new.load fsEmpty (some "data/x.json") =
        Except.ok (false, m1) ∧
      m1._filename = some "data/x.json" ∧
      m1._data = DailyEventMonitor.new._data ∧
      m1.load fsEmpty none = m1.load fsEmpty (some "data/x.json") ∧
      m1.save fsEmpty none = m1.save fsEmpty (some "data/x.json") :=
  load_records_path_even_on_failure DailyEventMonitor.new fsEmpty fsEmpty
    "data/x.json" (by decide) (Or.inl rfl)

/-- Setting a key makes it readable. -/
theorem assocGet_set_self (kvs : List (String × PyVal)) (k : String) (v : PyVal) :
    assocGet (assocSet kvs k v) k = some v := by
  induction kvs with
  | nil => simp [assocSet, assocGet]
  | cons kv rest ih =>
    obtain ⟨k1, v1⟩ := kv
    by_cases h : k1 = k
    · simp [assocSet, assocGet, h]
    · simp [assocSet, assocGet, h, ih]

/-- Setting a key leaves the other keys unchanged. -/
theorem assocGet_set_ne (kvs : List (String × PyVal)) (k k2 : String) (v : PyVal)
    (h : k2 ≠ k) : assocGet (assocSet kvs k v) k2 = assocGet kvs k2 := by
  induction kvs with
  | nil =>
    have h2 : k ≠ k2 := fun e => h e.symm
    simp [assocSet, assocGet, h2]
  | cons kv rest ih =>
    obtain ⟨k1, v1⟩ := kv
    by_cases h1 : k1 = k
    · subst h1
      have h2 : k1 ≠ k2 := fun e => h e.symm
      simp [assocSet, assocGet, h2]
    · by_cases h2 : k1 = k2
      · subst h2
        simp [assocSet, assocGet, h1]
      · simp [assocSet, assocGet, h1, h2, ih]

/-- Writing back the value already stored under a key is a no-op. -/
theorem assocSet_get_self (kvs : List (String × PyVal)) (k : String) (v : PyVal)
    (h : assocGet kvs k = some v) : assocSet kvs k v = kvs := by
  induction kvs with
  | nil => simp [assocGet] at h
  | cons kv rest ih =>
    obtain ⟨k1, v1⟩ := kv
    by_cases h1 : k1 = k
    · simp [assocGet, h1] at h
      simp [assocSet, h1, h]
    · simp [assocGet, h1] at h
      simp [assocSet, h1, ih h]

/-- A found binding is a member of the association list. -/
theorem assocGet_mem (kvs : List (String × PyVal)) (k : String) (v : PyVal)
    (h : assocGet kvs k = some v) : (k, v) ∈ kvs := by
  induction kvs with
  | nil => simp [assocGet] at h
  | cons kv rest ih =>
    obtain ⟨k1, v1⟩ := kv
    by_cases h1 : k1 = k
    · simp [assocGet, h1] at h
      rw [← h1, h]
      exact List.mem_cons_self _ _
    · simp [assocGet, h1] at h
      exact List.mem_cons_of_mem _ (ih h)

/-- The element at index length - 1 is the last element. -/
theorem get?_length_sub_one {a : Type} (xs : List a) :
    xs.get? (xs.length - 1) = xs.getLast? := by
  induction xs with
  | nil => rfl
  | cons x rest ih =>
    cases rest with
    | nil => rfl
    | cons y t =>
      rw [List.getLast?_cons_cons, ← ih]
      simp [List.length_cons]

/-- Python's index -1 denotes the last element. -/
theorem pyIndex_neg_one {a : Type} (xs : List a) :
    pyIndex xs (-1) = xs.getLast? := by
  cases hx : xs with
  | nil => rfl
  | cons x rest =>
    have hlen : 1 ≤ xs.length := by
      rw [hx]
      simp
    rw [← hx]
    unfold pyIndex
    rw [if_pos (by omega : (-1 : Int) < 0),
      if_pos ⟨by omega, by omega⟩]
    have hj : ((-1 : Int) + (xs.length : Int)).toNat = xs.length - 1 := by
      omega
    rw [hj, get?_length_sub_one]

/-- The last element of a list is a member of it. -/
theorem getLast?_mem_self {a : Type} (xs : List a) (x : a)
    (h : xs.getLast? = some x) : x ∈ xs := by
  induction xs with
  | nil => simp at h
  | cons y rest ih =>
    cases rest with
    | nil =>
      simp at h
      simp [h]
    | cons z t =>
      rw [List.getLast?_cons_cons] at h
      exact List.mem_cons_of_mem _ (ih h)

/-- Python's `data[-1]` on a non-empty list returns its last element. -/
theorem pyGetItem_last (evs : List PyVal) (h : evs ≠ []) :
    ∃ ev, evs.getLast? = some ev ∧
      pyGetItem (PyVal.lst evs) (-1) = Except.ok ev := by
  cases hl : evs.getLast? with
  | none => exact absurd (List.getLast?_eq_none_iff.mp hl) h
  | some ev =>
    refine ⟨ev, rfl, ?_⟩
    unfold pyGetItem
    dsimp only
    rw [pyIndex_neg_one, hl]

/-- A well-formed event record is a two-element tuple or list whose head is
the timestamp string, and evVal picks out its stored value. -/
theorem isEventVal_shape (ev : PyVal) (h : isEventVal ev = true) :
    ∃ t v, (ev = PyVal.tup [PyVal.str t, v] ∨ ev = PyVal.lst [PyVal.str t, v]) ∧
      evVal ev = v := by
  unfold isEventVal at h
  split at h
  · rename_i t v
    exact ⟨t, v, Or.inl rfl, rfl⟩
  · rename_i t v
    exact ⟨t, v, Or.inr rfl, rfl⟩
  · simp at h

/-- Python's `event[1]` on a well-formed event record returns its stored
value without raising. -/
theorem pyGetItem_one_of_event (ev : PyVal) (h : isEventVal ev = true) :
    pyGetItem ev 1 = Except.ok (evVal ev) := by
  obtain ⟨t, v, hshape, hval⟩ := isEventVal_shape ev h
  rcases hshape with he | he <;> rw [he] at hval ⊢ <;> rw [hval] <;> rfl

/-- C5: on any monitor whose in-memory value is a mapping (a dict, or the
None the lookup silently repairs — every state of the spec's data model),
get never raises; and on a date key not yet present it returns the empty
sequence while durably inserting that empty sequence, so that the key
appears in a subsequent data snapshot mapped to an empty sequence. -/
theorem get_unseen_day_inserts_empty
    (m : DailyEventMonitor) (year month day : Int)
    (hm : isMappingState m._data = true) :
    (∃ r, m.get year month day = Except.ok r) ∧
    (mapLookup m._data (dateKey year month day) = none →
      ∃ m1, m.get year month day = Except.ok (PyVal.lst [], m1) ∧
        mapLookup m1.data (dateKey year month day) = some (PyVal.lst []) ∧
        m1._filename = m._filename) := by
  obtain ⟨md, mf⟩ := m
  cases md with
  | null =>
    constructor
    · exact ⟨_, rfl⟩
    · intro _
      refine ⟨_, rfl, ?_, rfl⟩
      simp [mapLookup, DailyEventMonitor.data, assocGet]
  | dict kvs =>
    constructor
    · exact ⟨_, rfl⟩
    · intro hnone
      simp only [mapLookup] at hnone
      refine ⟨⟨PyVal.dict (assocSet kvs (dateKey year month day) (PyVal.lst [])), mf⟩, ?_, ?_, rfl⟩
      · simp [DailyEventMonitor.get, DailyEventMonitor.lookup_day, hnone]
      · simp [mapLookup, DailyEventMonitor.data, assocGet_set_self]
  | bool b => simp [isMappingState] at hm
  | int n => simp [isMappingState] at hm
  | str s => simp [isMappingState] at hm
  | lst xs => simp [isMappingState] at hm
  | tup xs => simp [isMappingState] at hm

/-- Witness for get_unseen_day_inserts_empty on a fresh monitor. -/
theorem get_unseen_day_inserts_empty_witness :
    (∃ r, DailyEventMonitor.new.get 2024 3 5 = Except.ok r) ∧
    (mapLookup DailyEventMonitor.new._data (dateKey 2024 3 5) = none →
      ∃ m1, DailyEventMonitor.new.get 2024 3 5 = Except.ok (PyVal.lst [], m1) ∧
        mapLookup m1.data (dateKey 2024 3 5) = some (PyVal.lst []) ∧
        m1._filename = DailyEventMonitor.new._filename) :=
  get_unseen_day_inserts_empty DailyEventMonitor.new 2024 3 5 rfl

/-- Overwriting a key twice is the same as writing it once. -/
theorem assocSet_assocSet (kvs : List (String × PyVal)) (k : String) (v w : PyVal) :
    assocSet (assocSet kvs k v) k w = assocSet kvs k w := by
  induction kvs with
  | nil => simp [assocSet]
  | cons kv rest ih =>
    obtain ⟨k1, v1⟩ := kv
    by_cases h1 : k1 = k
    · simp [assocSet, h1]
    · simp [assocSet, h1, ih]

/-- C1: add returns true exactly when an event was appended to the day's
sequence.  On any monitor of the data model, add never raises; it returns
false, leaving the monitor unchanged, exactly when ignore_repeat is set
and the day's sequence ends in an event whose stored value is
Python-equal to the new value (the timestamp is ignored); otherwise it
appends the (timestamp, value) tuple to that day's sequence, touching no
other day, and returns true. -/
theorem add_returns_true_iff_appended
    (m : DailyEventMonitor) (now : String) (year month day : Int)
    (value : PyVal) (ignore_repeat : Bool)
    (hwf : WFData m._data = true) :
    ∃ b m1, m.add now year month day value ignore_repeat = Except.ok (b, m1) ∧
      (b = false ↔ ignore_repeat = true ∧
        ∃ ev, (m.dayEvents (dateKey year month day)).getLast? = some ev ∧
          pyEq (evVal ev) value = true) ∧
      (b = false → m1 = m) ∧
      (b = true → m1.dayEvents (dateKey year month day) =
        m.dayEvents (dateKey year month day) ++ [PyVal.tup [PyVal.str now, value]]) ∧
      (b = true → ∀ k2, k2 ≠ dateKey year month day →
        m1.dayEvents k2 = m.dayEvents k2) ∧
      m1._filename = m._filename := by
  obtain ⟨md, mf⟩ := m
  cases md with
  | bool b => simp [WFData] at hwf
  | int n => simp [WFData] at hwf
  | str s => simp [WFData] at hwf
  | lst xs => simp [WFData] at hwf
  | tup xs => simp [WFData] at hwf
  | null =>
    refine ⟨true, ⟨PyVal.dict [(dateKey year month day,
      PyVal.lst [PyVal.tup [PyVal.str now, value]])], mf⟩, ?_, ?_, ?_, ?_, ?_, rfl⟩
    · cases ignore_repeat <;>
        simp [DailyEventMonitor.add, DailyEventMonitor.lookup_day,
          DailyEventMonitor.setDay, pyLen, pyAppend, assocSet]
    · simp [DailyEventMonitor.dayEvents]
    · simp
    · intro _
      simp [DailyEventMonitor.dayEvents, assocGet]
    · intro _ k2 hk2
      simp [DailyEventMonitor.dayEvents, assocGet, Ne.symm hk2]
  | dict kvs =>
    have hwf2 : ∀ kv ∈ kvs, isDayVal kv.2 = true := by
      simpa only [WFData, List.all_eq_true] using hwf
    cases hget : assocGet kvs (dateKey year month day) with
    | none =>
      refine ⟨true, ⟨PyVal.dict (assocSet kvs (dateKey year month day)
        (PyVal.lst [PyVal.tup [PyVal.str now, value]])), mf⟩, ?_, ?_, ?_, ?_, ?_, rfl⟩
      · cases ignore_repeat <;>
          simp [DailyEventMonitor.add, DailyEventMonitor.lookup_day,
            DailyEventMonitor.setDay, pyLen, pyAppend, hget, assocSet_assocSet]
      · simp [DailyEventMonitor.dayEvents, hget]
      · simp
      · intro _
        simp [DailyEventMonitor.dayEvents, hget, assocGet_set_self]
      · intro _ k2 hk2
        simp [DailyEventMonitor.dayEvents, assocGet_set_ne kvs _ k2 _ hk2, hget]
    | some v =>
      have hday : isDayVal v = true := hwf2 _ (assocGet_mem _ _ _ hget)
      cases v with
      | null => simp [isDayVal] at hday
      | bool b => simp [isDayVal] at hday
      | int n => simp [isDayVal] at hday
      | str s => simp [isDayVal] at hday
      | tup xs => simp [isDayVal] at hday
      | dict kvs2 => simp [isDayVal] at hday
      | lst evs =>
        have hall : ∀ ev ∈ evs, isEventVal ev = true := by
          simpa only [isDayVal, List.all_eq_true] using hday
        have hset : assocSet kvs (dateKey year month day) (PyVal.lst evs) = kvs :=
          assocSet_get_self _ _ _ hget
        have hlookup : DailyEventMonitor.lookup_day ⟨PyVal.dict kvs, mf⟩ year month day
            = Except.ok (PyVal.lst evs, ⟨PyVal.dict kvs, mf⟩) := by
          simp [DailyEventMonitor.lookup_day, hget, hset]
        cases ignore_repeat with
        | false =>
          refine ⟨true, ⟨PyVal.dict (assocSet kvs (dateKey year month day)
            (PyVal.lst (evs ++ [PyVal.tup [PyVal.str now, value]]))), mf⟩,
            ?_, ?_, ?_, ?_, ?_, rfl⟩
          · simp [DailyEventMonitor.add, hlookup, pyAppend, DailyEventMonitor.setDay]
          · simp
          · simp
          · intro _
            simp [DailyEventMonitor.dayEvents, hget, assocGet_set_self]
          · intro _ k2 hk2
            simp [DailyEventMonitor.dayEvents, assocGet_set_ne kvs _ k2 _ hk2, hget]
        | true =>
          cases evs with
          | nil =>
            refine ⟨true, ⟨PyVal.dict (assocSet kvs (dateKey year month day)
              (PyVal.lst [PyVal.tup [PyVal.str now, value]])), mf⟩, ?_, ?_, ?_, ?_, ?_, rfl⟩
            · simp [DailyEventMonitor.add, hlookup, pyLen, pyAppend,
                DailyEventMonitor.setDay]
            · simp [DailyEventMonitor.dayEvents, hget]
            · simp
            · intro _
              simp [DailyEventMonitor.dayEvents, hget, assocGet_set_self]
            · intro _ k2 hk2
              simp [DailyEventMonitor.dayEvents, assocGet_set_ne kvs _ k2 _ hk2, hget]
          | cons e0 rest =>
            obtain ⟨lastEv, hlast, hitem⟩ := pyGetItem_last (e0 :: rest) (by simp)
            have hev : isEventVal lastEv = true :=
              hall lastEv (getLast?_mem_self _ _ hlast)
            have hitem1 : pyGetItem lastEv 1 = Except.ok (evVal lastEv) :=
              pyGetItem_one_of_event lastEv hev
            have hlen : (0 : Int) < (((e0 :: rest : List PyVal)).length : Int) := by
              simp
            cases hskip : pyEq (evVal lastEv) value with
            | true =>
              refine ⟨false, ⟨PyVal.dict kvs, mf⟩, ?_, ?_, ?_, ?_, ?_, rfl⟩
              · unfold DailyEventMonitor.add
                rw [hlookup]
                dsimp only [pyLen]
                rw [if_pos hlen, hitem]
                dsimp only
                rw [hitem1]
                dsimp only
                rw [hskip]
                rfl
              · constructor
                · intro _
                  refine ⟨rfl, lastEv, ?_, hskip⟩
                  simpa [DailyEventMonitor.dayEvents, hget] using hlast
                · intro _
                  rfl
              · intro _
                rfl
              · intro h
                exact absurd h (by simp)
              · intro h
                exact absurd h (by simp)
            | false =>
              refine ⟨true, ⟨PyVal.dict (assocSet kvs (dateKey year month day)
                (PyVal.lst ((e0 :: rest) ++ [PyVal.tup [PyVal.str now, value]]))), mf⟩,
                ?_, ?_, ?_, ?_, ?_, rfl⟩
              · unfold DailyEventMonitor.add
                rw [hlookup]
                dsimp only [pyLen]
                rw [if_pos hlen, hitem]
                dsimp only
                rw [hitem1]
                dsimp only
                rw [hskip]
                dsimp only [pyAppend, DailyEventMonitor.setDay]
                rfl
              · constructor
                · intro h
                  exact absurd h (by simp)
                · intro ⟨_, ev, hev2, hpy⟩
                  rw [show ((⟨PyVal.dict kvs, mf⟩ :
                    DailyEventMonitor).dayEvents (dateKey year month day)) = e0 :: rest
                    from by simp [DailyEventMonitor.dayEvents, hget]] at hev2
                  rw [hlast] at hev2
                  cases hev2
                  rw [hskip] at hpy
                  exact absurd hpy (by simp)
              · intro h
                exact absurd h (by simp)
              · intro _
                simp [DailyEventMonitor.dayEvents, hget, assocGet_set_self]
              · intro _ k2 hk2
                simp [DailyEventMonitor.dayEvents, assocGet_set_ne kvs _ k2 _ hk2, hget]

/-- Witness for add_returns_true_iff_appended on a fresh monitor. -/
theorem add_returns_true_iff_appended_witness :
    ∃ b m1, DailyEventMonitor.new.add tsEx 2024 3 5 (PyVal.str "A") true
        = Except.ok (b, m1) ∧
      (b = false ↔ true = true ∧
        ∃ ev, (DailyEventMonitor.new.dayEvents (dateKey 2024 3 5)).getLast? = some ev ∧
          pyEq (evVal ev) (PyVal.str "A") = true) ∧
      (b = false → m1 = DailyEventMonitor.new) ∧
      (b = true → m1.dayEvents (dateKey 2024 3 5) =
        DailyEventMonitor.new.dayEvents (dateKey 2024 3 5) ++
          [PyVal.tup [PyVal.str tsEx, PyVal.str "A"]]) ∧
      (b = true → ∀ k2, k2 ≠ dateKey 2024 3 5 →
        m1.dayEvents k2 = DailyEventMonitor.new.dayEvents k2) ∧
      m1._filename = DailyEventMonitor.new._filename :=
  add_returns_true_iff_appended DailyEventMonitor.new tsEx 2024 3 5
    (PyVal.str "A") true rfl

/-- The JSON round trip is the identity on primitive values. -/
theorem toJsonVal_prim (v : PyVal) (h : isPrim v = true) : toJsonVal v = v := by
  cases v with
  | null => rfl
  | bool b => rfl
  | int n => rfl
  | str s => rfl
  | lst xs => simp [isPrim] at h
  | tup xs => simp [isPrim] at h
  | dict kvs => simp [isPrim] at h

/-- The JSON round trip preserves an event's timestamp and value. -/
theorem viewEvent_toJson (ev : PyVal) (h : isEventVal ev = true) :
    viewEvent (toJsonVal ev) = viewEvent ev ∧ (viewEvent ev).isSome = true := by
  obtain ⟨t, v, hshape, hval⟩ := isEventVal_shape ev h
  have hp : isPrim v = true := by
    rcases hshape with he | he <;> rw [he] at h <;> simpa [isEventVal] using h
  rcases hshape with he | he <;> subst he <;>
    simp [toJsonVal, toJsonList, viewEvent, toJsonVal_prim v hp]

/-- The JSON round trip preserves a day's event sequence, viewed as
(timestamp, value) pairs. -/
theorem viewEvents_toJson (evs : List PyVal)
    (h : ∀ ev ∈ evs, isEventVal ev = true) :
    viewEvents (toJsonList evs) = viewEvents evs ∧
      (viewEvents evs).isSome = true := by
  induction evs with
  | nil => simp [toJsonList, viewEvents]
  | cons ev evs ih =>
    obtain ⟨ih1, ih2⟩ := ih (fun e he => h e (List.mem_cons_of_mem _ he))
    obtain ⟨h1, h2⟩ := viewEvent_toJson ev (h ev (List.mem_cons_self _ _))
    rw [Option.isSome_iff_exists] at h2 ih2
    obtain ⟨p, hp⟩ := h2
    obtain ⟨ps, hps⟩ := ih2
    constructor
    · simp [toJsonList, viewEvents, h1, hp, ih1, hps]
    · simp [viewEvents, hp, hps]

/-- The JSON round trip preserves one day's stored entry, viewed as
(timestamp, value) pairs. -/
theorem viewDay_toJson (v : PyVal) (h : isDayVal v = true) :
    viewDay (toJsonVal v) = viewDay v ∧ (viewDay v).isSome = true := by
  cases v with
  | lst evs =>
    have hall : ∀ ev ∈ evs, isEventVal ev = true := by
      simpa [isDayVal, List.all_eq_true] using h
    obtain ⟨h1, h2⟩ := viewEvents_toJson evs hall
    exact ⟨by simpa [toJsonVal, viewDay] using h1, by simpa [viewDay] using h2⟩
  | null => simp [isDayVal] at h
  | bool b => simp [isDayVal] at h
  | int n => simp [isDayVal] at h
  | str s => simp [isDayVal] at h
  | tup xs => simp [isDayVal] at h
  | dict kvs => simp [isDayVal] at h

/-- The JSON round trip preserves all date-keyed entries and their
order. -/
theorem viewDays_toJson (kvs : List (String × PyVal))
    (h : ∀ kv ∈ kvs, isDayVal kv.2 = true) :
    viewDays (toJsonKVs kvs) = viewDays kvs ∧ (viewDays kvs).isSome = true := by
  induction kvs with
  | nil => simp [toJsonKVs, viewDays]
  | cons kv kvs ih =>
    obtain ⟨k, v⟩ := kv
    obtain ⟨ih1, ih2⟩ := ih (fun e he => h e (List.mem_cons_of_mem _ he))
    obtain ⟨h1, h2⟩ := viewDay_toJson v (h (k, v) (List.mem_cons_self _ _))
    rw [Option.isSome_iff_exists] at h2 ih2
    obtain ⟨l, hl⟩ := h2
    obtain ⟨ls, hls⟩ := ih2
    constructor
    · simp [toJsonKVs, viewDays, h1, hl, ih1, hls]
    · simp [viewDays, hl, hls]

/-- C2 counterexample: append the value "A" on a fresh monitor, save to
"out.json", then load into a fresh monitor.  The loaded data snapshot is
not deep-equal (Python ==) to the original snapshot: the original stores
the event as the tuple ("2024-03-05 10:00AM", "A") while the JSON round
trip returns it as a two-element list, and a tuple never compares equal to
a list in Python. -/
theorem save_load_not_python_deep_equal :
    DailyEventMonitor.new.add tsEx 2024 3 5 (PyVal.str "A") true
      = Except.ok (true, rtA) ∧
    rtA.save fsEmpty (some "out.json")
      = Except.ok (⟨rtA._data, some "out.json"⟩, rtFS) ∧
    DailyEventMonitor.new.load rtFS (some "out.json") = Except.ok (true, rtB) ∧
    pyEq rtA.data rtB.data = false := by
  refine ⟨rfl, rfl, rfl, ?_⟩
  have h1 : rtA.data = PyVal.dict [("2024-3-5",
      PyVal.lst [PyVal.tup [PyVal.str tsEx, PyVal.str "A"]])] := rfl
  have h2 : rtB.data = PyVal.dict [("2024-3-5",
      PyVal.lst [PyVal.lst [PyVal.str tsEx, PyVal.str "A"]])] := rfl
  rw [h1, h2]
  simp [pyEq, pyEqDictSub, pyEqFind, pyEqList]

/-- C2 amended: saving any monitor and loading the file into a fresh
monitor reproduces the original data up to the JSON round trip, which
turns each (timestamp, value) event tuple into a two-element list: the
loaded snapshot is toJsonVal of the original, and on well-formed data the
two snapshots have the same date keys in the same order with the same
ordered (timestamp, value) pairs — though they are not Python-deep-equal
(see save_load_not_python_deep_equal). -/
theorem save_load_roundtrip_up_to_tuples
    (m : DailyEventMonitor) (fs : FS) (p : String) (hp : p ≠ "") :
    ∃ m1 fs1 m2,
      m.save fs (some p) = Except.ok (m1, fs1) ∧
      DailyEventMonitor.new.load fs1 (some p) = Except.ok (true, m2) ∧
      m2.data = toJsonVal m.data ∧
      (∀ kvs, m._data = PyVal.dict kvs → WFData m._data = true →
        eventsView m2.data = eventsView m.data ∧
          (eventsView m.data).isSome = true) := by
  refine ⟨{ m with _filename := some p },
    fsWrite fs p (FileContent.json (toJsonVal m._data)),
    ⟨toJsonVal m._data, some p⟩, ?_, ?_, rfl, ?_⟩
  · simp [DailyEventMonitor.save, orFilename, hp]
  · simp [DailyEventMonitor.load, orFilename, hp, fsWrite]
  · intro kvs hkvs hwf
    rw [hkvs] at hwf
    have hall : ∀ kv ∈ kvs, isDayVal kv.2 = true := by
      simpa only [WFData, List.all_eq_true] using hwf
    obtain ⟨h1, h2⟩ := viewDays_toJson kvs hall
    constructor
    · simp [DailyEventMonitor.data, hkvs, toJsonVal, eventsView, h1]
    · simp [DailyEventMonitor.data, hkvs, eventsView, h2]

/-- Witness for save_load_roundtrip_up_to_tuples on the one-event
monitor. -/
theorem save_load_roundtrip_up_to_tuples_witness :
    ∃ m1 fs1 m2,
      rtA.save fsEmpty (some "out.json") = Except.ok (m1, fs1) ∧
      DailyEventMonitor.new.load fs1 (some "out.json") = Except.ok (true, m2) ∧
      m2.data = toJsonVal rtA.data ∧
      (∀ kvs, rtA._data = PyVal.dict kvs → WFData rtA._data = true →
        eventsView m2.data = eventsView rtA.data ∧
          (eventsView rtA.data).isSome = true) :=
  save_load_roundtrip_up_to_tuples rtA fsEmpty "out.json" (by decide)

/-- C4: running the scanner over a query stream that returns the maximum
open count on 2024-03-05, a lower count on 2024-03-06 and the maximum
again on 2024-03-07 terminates after 2024-03-07 with the counter at 2,
because the source never resets contiguous_unbooked on a non-maximum day;
a loop that counted genuinely consecutive maximum days (the spec's words,
and the variable's own name) would reset on 2024-03-06 and continue
through 2024-03-08. -/
theorem scanner_counter_not_consecutive :
    (∃ mdone, update_hopewell_quarry_data qScan tsEx 10 (2024, 3, 5) 0
        DailyEventMonitor.new = LoopOutcome.done mdone) ∧
    scanKeys (update_hopewell_quarry_data qScan tsEx 10 (2024, 3, 5) 0
      DailyEventMonitor.new) = ["2024-3-5", "2024-3-6", "2024-3-7"] ∧
    qScan (2024, 3, 6) = some 250 ∧
    scanKeys (update_hopewell_quarry_data_consecutive_spec qScan tsEx 10
      (2024, 3, 5) 0 DailyEventMonitor.new)
      = ["2024-3-5", "2024-3-6", "2024-3-7", "2024-3-8"] :=
  ⟨⟨_, rfl⟩, rfl, rfl, rfl⟩

namespace Heap

/-- Store extension is reflexive. -/
theorem Ext.rfl (s : Store) : Ext s s := fun _ _ h => h

/-- Store extension is transitive. -/
theorem Ext.trans {s1 s2 s3 : Store} (h1 : Ext s1 s2) (h2 : Ext s2 s3) :
    Ext s1 s3 := fun a o h => h2 a o (h1 a o h)

/-- Finding in an appended list first searches the front. -/
theorem assocFind_append_left (mem mem2 : List (Nat × Obj)) (a : Nat) (o : Obj)
    (h : assocFind mem a = some o) : assocFind (mem ++ mem2) a = some o := by
  induction mem with
  | nil => simp [assocFind] at h
  | cons e rest ih =>
    obtain ⟨k, w⟩ := e
    by_cases hk : k = a
    · simp [assocFind, hk] at h ⊢
      exact h
    · simp [assocFind, hk] at h ⊢
      exact ih h

/-- Anything readable stays readable after an allocation. -/
theorem lookupA_alloc_old (s : Store) (o2 : Obj) (a : Nat) (o : Obj)
    (h : lookupA s a = some o) : lookupA (alloc s o2).1 a = some o := by
  unfold lookupA at h
  unfold lookupA alloc
  exact assocFind_append_left _ _ _ _ h

/-- Allocation extends the store. -/
theorem Ext.alloc (s : Store) (o : Obj) : Ext s (alloc s o).1 :=
  fun a ob h => lookupA_alloc_old s o a ob h

/-- The keys of a well-formed store lie below next. -/
theorem wf_keys (s : Store) (hwf : WFStore s = true) :
    ∀ e ∈ s.mem, e.1 < s.next := by
  intro e he
  unfold WFStore at hwf
  rw [List.all_eq_true] at hwf
  have := hwf e he
  simp only [Bool.and_eq_true, decide_eq_true_eq] at this
  exact this.1

/-- The referenced addresses of a well-formed store lie below next. -/
theorem wf_refs (s : Store) (hwf : WFStore s = true) :
    ∀ e ∈ s.mem, refsBelow e.2 s.next = true := by
  intro e he
  unfold WFStore at hwf
  rw [List.all_eq_true] at hwf
  have := hwf e he
  simp only [Bool.and_eq_true, decide_eq_true_eq] at this
  exact this.2

/-- A successful find hits a binding of the list. -/
theorem assocFind_mem (mem : List (Nat × Obj)) (a : Nat) (o : Obj)
    (h : assocFind mem a = some o) : (a, o) ∈ mem := by
  induction mem with
  | nil => simp [assocFind] at h
  | cons e rest ih =>
    obtain ⟨k, w⟩ := e
    by_cases hk : k = a
    · subst hk
      simp [assocFind] at h
      rw [h]
      exact List.mem_cons_self _ _
    · simp [assocFind, hk] at h
      exact List.mem_cons_of_mem _ (ih h)

/-- In a well-formed store every readable address lies below next, and the
object found refers only below next. -/
theorem lookupA_below (s : Store) (hwf : WFStore s = true) (a : Nat) (o : Obj)
    (h : lookupA s a = some o) : a < s.next ∧ refsBelow o s.next = true := by
  have hmem := assocFind_mem s.mem a o h
  exact ⟨wf_keys s hwf (a, o) hmem, wf_refs s hwf (a, o) hmem⟩

/-- The freshly allocated address reads back the allocated object, in a
well-formed store. -/
theorem assocFind_append_fresh (mem : List (Nat × Obj)) (nx : Nat) (o : Obj)
    (h : ∀ e ∈ mem, e.1 ≠ nx) :
    assocFind (mem ++ [(nx, o)]) nx = some o := by
  induction mem with
  | nil => simp [assocFind]
  | cons e rest ih =>
    obtain ⟨k, w⟩ := e
    have hne : k ≠ nx := h (k, w) (List.mem_cons_self _ _)
    simp only [List.cons_append, assocFind, hne, if_false]
    exact ih (fun e2 he2 => h e2 (List.mem_cons_of_mem _ he2))

/-- The freshly allocated address reads back the allocated object, in a
well-formed store. -/
theorem lookupA_alloc_self (s : Store) (hwf : WFStore s = true) (o : Obj) :
    lookupA (alloc s o).1 s.next = some o := by
  unfold lookupA alloc
  dsimp only
  exact assocFind_append_fresh s.mem s.next o
    (fun e he => by have := wf_keys s hwf e he; omega)

/-- refsBelow is monotone in the bound. -/
theorem refsBelow_mono (o : Obj) (n n2 : Nat) (h : refsBelow o n = true)
    (hle : n ≤ n2) : refsBelow o n2 = true := by
  cases o with
  | prim v => rfl
  | lst as =>
    simp only [refsBelow, List.all_eq_true, decide_eq_true_eq] at h ⊢
    intro b hb
    exact lt_of_lt_of_le (h b hb) hle
  | tup as =>
    simp only [refsBelow, List.all_eq_true, decide_eq_true_eq] at h ⊢
    intro b hb
    exact lt_of_lt_of_le (h b hb) hle
  | dict kvs =>
    simp only [refsBelow, List.all_eq_true, decide_eq_true_eq] at h ⊢
    intro kv hkv
    exact lt_of_lt_of_le (h kv hkv) hle

/-- Allocating an object whose references lie below next preserves store
well-formedness. -/
theorem WFStore_alloc (s : Store) (hwf : WFStore s = true) (o : Obj)
    (href : refsBelow o s.next = true) : WFStore (alloc s o).1 = true := by
  unfold WFStore alloc
  dsimp only
  rw [List.all_eq_true]
  intro e he
  rw [List.mem_append] at he
  simp only [Bool.and_eq_true, decide_eq_true_eq]
  cases he with
  | inl hold =>
    refine ⟨by have := wf_keys s hwf e hold; omega, ?_⟩
    exact refsBelow_mono _ _ _ (wf_refs s hwf e hold) (by omega)
  | inr hnew =>
    simp only [List.mem_singleton] at hnew
    rw [hnew]
    exact ⟨by omega, refsBelow_mono _ _ _ href (by omega)⟩

/-- Updating one address leaves every other address's binding unchanged. -/
theorem assocFind_update_ne (mem : List (Nat × Obj)) (a : Nat) (o : Obj)
    (b : Nat) (hne : b ≠ a) :
    assocFind (assocUpdate mem a o) b = assocFind mem b := by
  induction mem with
  | nil => rfl
  | cons e rest ih =>
    obtain ⟨k, w⟩ := e
    by_cases hk : k = a
    · subst hk
      have hkb : k ≠ b := fun e2 => hne e2.symm
      simp [assocUpdate, assocFind, hkb]
    · by_cases hb : k = b
      · subst hb
        simp [assocUpdate, assocFind, hk]
      · simp [assocUpdate, assocFind, hk, hb, ih]

/-- Updating one address leaves every other address's lookup unchanged. -/
theorem lookupA_update_ne (s : Store) (a : Nat) (o : Obj) (b : Nat)
    (hne : b ≠ a) : lookupA (updateA s a o) b = lookupA s b := by
  unfold lookupA updateA
  exact assocFind_update_ne s.mem a o b hne

/-- Reading is stable under store extension. -/
theorem read_ext_all (n : Nat) :
    (∀ s s2 a v, Ext s s2 → readV n s a = some v → readV n s2 a = some v) ∧
    (∀ s s2 as vs, Ext s s2 → readL n s as = some vs → readL n s2 as = some vs) ∧
    (∀ s s2 kvs vs, Ext s s2 → readKV n s kvs = some vs →
      readKV n s2 kvs = some vs) := by
  induction n with
  | zero =>
    refine ⟨?_, ?_, ?_⟩
    · intro s s2 a v _ h
      simp [readV] at h
    · intro s s2 as vs _ h
      cases as with
      | nil => exact h
      | cons a as => simp [readL] at h
    · intro s s2 kvs vs _ h
      cases kvs with
      | nil => exact h
      | cons kv kvs => simp [readKV] at h
  | succ n ih =>
    obtain ⟨ihV, ihL, ihKV⟩ := ih
    refine ⟨?_, ?_, ?_⟩
    · intro s s2 a v hext h
      unfold readV at h ⊢
      cases hl : lookupA s a with
      | none =>
        rw [hl] at h
        exact absurd h (by simp)
      | some obj =>
        rw [hl] at h
        rw [hext a obj hl]
        cases obj with
        | prim w => exact h
        | lst as =>
          dsimp only at h ⊢
          rw [Option.map_eq_some'] at h ⊢
          obtain ⟨vs, hvs, hv⟩ := h
          exact ⟨vs, ihL s s2 as vs hext hvs, hv⟩
        | tup as =>
          dsimp only at h ⊢
          rw [Option.map_eq_some'] at h ⊢
          obtain ⟨vs, hvs, hv⟩ := h
          exact ⟨vs, ihL s s2 as vs hext hvs, hv⟩
        | dict kvs =>
          dsimp only at h ⊢
          rw [Option.map_eq_some'] at h ⊢
          obtain ⟨vs, hvs, hv⟩ := h
          exact ⟨vs, ihKV s s2 kvs vs hext hvs, hv⟩
    · intro s s2 as vs hext h
      cases as with
      | nil => exact h
      | cons a as =>
        unfold readL at h ⊢
        cases h1 : readV n s a with
        | none =>
          rw [h1] at h
          exact absurd h (by simp)
        | some v1 =>
          cases h2 : readL n s as with
          | none =>
            rw [h1, h2] at h
            exact absurd h (by simp)
          | some vs1 =>
            rw [h1, h2] at h
            rw [ihV s s2 a v1 hext h1, ihL s s2 as vs1 hext h2]
            exact h
    · intro s s2 kvs vs hext h
      cases kvs with
      | nil => exact h
      | cons kv kvs =>
        unfold readKV at h ⊢
        cases h1 : readV n s kv.2 with
        | none =>
          rw [h1] at h
          exact absurd h (by simp)
        | some v1 =>
          cases h2 : readKV n s kvs with
          | none =>
            rw [h1, h2] at h
            exact absurd h (by simp)
          | some vs1 =>
            rw [h1, h2] at h
            rw [ihV s s2 kv.2 v1 hext h1, ihKV s s2 kvs vs1 hext h2]
            exact h

/-- The visited-address list is stable under store extension. -/
theorem reach_ext_all (n : Nat) :
    (∀ s s2 a L, Ext s s2 → reachV n s a = some L → reachV n s2 a = some L) ∧
    (∀ s s2 as Ls, Ext s s2 → reachL n s as = some Ls →
      reachL n s2 as = some Ls) := by
  induction n with
  | zero =>
    refine ⟨?_, ?_⟩
    · intro s s2 a L _ h
      simp [reachV] at h
    · intro s s2 as Ls _ h
      cases as with
      | nil => exact h
      | cons a as => simp [reachL] at h
  | succ n ih =>
    obtain ⟨ihV, ihL⟩ := ih
    refine ⟨?_, ?_⟩
    · intro s s2 a L hext h
      unfold reachV at h ⊢
      cases hl : lookupA s a with
      | none =>
        rw [hl] at h
        exact absurd h (by simp)
      | some obj =>
        rw [hl] at h
        rw [hext a obj hl]
        cases obj with
        | prim w => exact h
        | lst as =>
          dsimp only at h ⊢
          rw [Option.map_eq_some'] at h ⊢
          obtain ⟨Ls, hLs, hL⟩ := h
          exact ⟨Ls, ihL s s2 as Ls hext hLs, hL⟩
        | tup as =>
          dsimp only at h ⊢
          rw [Option.map_eq_some'] at h ⊢
          obtain ⟨Ls, hLs, hL⟩ := h
          exact ⟨Ls, ihL s s2 as Ls hext hLs, hL⟩
        | dict kvs =>
          dsimp only at h ⊢
          rw [Option.map_eq_some'] at h ⊢
          obtain ⟨Ls, hLs, hL⟩ := h
          exact ⟨Ls, ihL s s2 (kvs.map Prod.snd) Ls hext hLs, hL⟩
    · intro s s2 as Ls hext h
      cases as with
      | nil => exact h
      | cons a as =>
        unfold reachL at h ⊢
        cases h1 : reachV n s a with
        | none =>
          rw [h1] at h
          exact absurd h (by simp)
        | some L1 =>
          cases h2 : reachL n s as with
          | none =>
            rw [h1, h2] at h
            exact absurd h (by simp)
          | some L2 =>
            rw [h1, h2] at h
            rw [ihV s s2 a L1 hext h1, ihL s s2 as L2 hext h2]
            exact h

/-- In a well-formed store, every visited address lies below next. -/
theorem reach_below_all (n : Nat) :
    (∀ s a L, WFStore s = true → reachV n s a = some L → ∀ b ∈ L, b < s.next) ∧
    (∀ s as Ls, WFStore s = true → reachL n s as = some Ls →
      ∀ b ∈ Ls, b < s.next) := by
  induction n with
  | zero =>
    refine ⟨?_, ?_⟩
    · intro s a L _ h
      simp [reachV] at h
    · intro s as Ls _ h
      cases as with
      | nil =>
        cases h
        intro b hb
        simp at hb
      | cons a as => simp [reachL] at h
  | succ n ih =>
    obtain ⟨ihV, ihL⟩ := ih
    refine ⟨?_, ?_⟩
    · intro s a L hwf h
      unfold reachV at h
      cases hl : lookupA s a with
      | none =>
        rw [hl] at h
        exact absurd h (by simp)
      | some obj =>
        have ha := (lookupA_below s hwf a obj hl).1
        rw [hl] at h
        cases obj with
        | prim w =>
          cases h
          intro b hb
          simp at hb
          omega
        | lst as =>
          dsimp only at h
          rw [Option.map_eq_some'] at h
          obtain ⟨Ls, hLs, hL⟩ := h
          rw [← hL]
          intro b hb
          rw [List.mem_cons] at hb
          cases hb with
          | inl hb => omega
          | inr hb => exact ihL s as Ls hwf hLs b hb
        | tup as =>
          dsimp only at h
          rw [Option.map_eq_some'] at h
          obtain ⟨Ls, hLs, hL⟩ := h
          rw [← hL]
          intro b hb
          rw [List.mem_cons] at hb
          cases hb with
          | inl hb => omega
          | inr hb => exact ihL s as Ls hwf hLs b hb
        | dict kvs =>
          dsimp only at h
          rw [Option.map_eq_some'] at h
          obtain ⟨Ls, hLs, hL⟩ := h
          rw [← hL]
          intro b hb
          rw [List.mem_cons] at hb
          cases hb with
          | inl hb => omega
          | inr hb => exact ihL s (kvs.map Prod.snd) Ls hwf hLs b hb
    · intro s as Ls hwf h
      cases as with
      | nil =>
        cases h
        intro b hb
        simp at hb
      | cons a as =>
        unfold reachL at h
        cases h1 : reachV n s a with
        | none =>
          rw [h1] at h
          exact absurd h (by simp)
        | some L1 =>
          cases h2 : reachL n s as with
          | none =>
            rw [h1, h2] at h
            exact absurd h (by simp)
          | some L2 =>
            rw [h1, h2] at h
            cases h
            intro b hb
            rw [List.mem_append] at hb
            cases hb with
            | inl hb => exact ihV s a L1 hwf h1 b hb
            | inr hb => exact ihL s as L2 hwf h2 b hb

/-- A successful read determines a successful visited-address list. -/
theorem read_implies_reach_all (n : Nat) :
    (∀ s a v, readV n s a = some v → ∃ L, reachV n s a = some L) ∧
    (∀ s as vs, readL n s as = some vs → ∃ Ls, reachL n s as = some Ls) ∧
    (∀ s kvs vs, readKV n s kvs = some vs →
      ∃ Ls, reachL n s (kvs.map Prod.snd) = some Ls) := by
  induction n with
  | zero =>
    refine ⟨?_, ?_, ?_⟩
    · intro s a v h
      simp [readV] at h
    · intro s as vs h
      cases as with
      | nil => exact ⟨[], rfl⟩
      | cons a as => simp [readL] at h
    · intro s kvs vs h
      cases kvs with
      | nil => exact ⟨[], rfl⟩
      | cons kv kvs => simp [readKV] at h
  | succ n ih =>
    obtain ⟨ihV, ihL, ihKV⟩ := ih
    refine ⟨?_, ?_, ?_⟩
    · intro s a v h
      unfold readV at h
      unfold reachV
      cases hl : lookupA s a with
      | none =>
        rw [hl] at h
        exact absurd h (by simp)
      | some obj =>
        rw [hl] at h
        cases obj with
        | prim w => exact ⟨[a], rfl⟩
        | lst as =>
          dsimp only at h ⊢
          rw [Option.map_eq_some'] at h
          obtain ⟨vs, hvs, _⟩ := h
          obtain ⟨Ls, hLs⟩ := ihL s as vs hvs
          exact ⟨a :: Ls, by rw [hLs]; rfl⟩
        | tup as =>
          dsimp only at h ⊢
          rw [Option.map_eq_some'] at h
          obtain ⟨vs, hvs, _⟩ := h
          obtain ⟨Ls, hLs⟩ := ihL s as vs hvs
          exact ⟨a :: Ls, by rw [hLs]; rfl⟩
        | dict kvs =>
          dsimp only at h ⊢
          rw [Option.map_eq_some'] at h
          obtain ⟨vs, hvs, _⟩ := h
          obtain ⟨Ls, hLs⟩ := ihKV s kvs vs hvs
          exact ⟨a :: Ls, by rw [hLs]; rfl⟩
    · intro s as vs h
      cases as with
      | nil => exact ⟨[], rfl⟩
      | cons a as =>
        unfold readL at h
        unfold reachL
        cases h1 : readV n s a with
        | none =>
          rw [h1] at h
          exact absurd h (by simp)
        | some v1 =>
          cases h2 : readL n s as with
          | none =>
            rw [h1, h2] at h
            exact absurd h (by simp)
          | some vs1 =>
            obtain ⟨L1, hL1⟩ := ihV s a v1 h1
            obtain ⟨L2, hL2⟩ := ihL s as vs1 h2
            exact ⟨L1 ++ L2, by rw [hL1, hL2]⟩
    · intro s kvs vs h
      cases kvs with
      | nil => exact ⟨[], rfl⟩
      | cons kv kvs =>
        unfold readKV at h
        cases h1 : readV n s kv.2 with
        | none =>
          rw [h1] at h
          exact absurd h (by simp)
        | some v1 =>
          cases h2 : readKV n s kvs with
          | none =>
            rw [h1, h2] at h
            exact absurd h (by simp)
          | some vs1 =>
            obtain ⟨L1, hL1⟩ := ihV s kv.2 v1 h1
            obtain ⟨L2, hL2⟩ := ihKV s kvs vs1 h2
            refine ⟨L1 ++ L2, ?_⟩
            rw [List.map_cons]
            unfold reachL
            rw [hL1, hL2]

/-- Frame rule: mutating an address outside the visited-address list of a
value leaves that value readable unchanged. -/
theorem frame_all (n : Nat) :
    (∀ s x o r v L, readV n s r = some v → reachV n s r = some L → x ∉ L →
      readV n (updateA s x o) r = some v) ∧
    (∀ s x o as vs Ls, readL n s as = some vs → reachL n s as = some Ls →
      x ∉ Ls → readL n (updateA s x o) as = some vs) ∧
    (∀ s x o kvs vs Ls, readKV n s kvs = some vs →
      reachL n s (kvs.map Prod.snd) = some Ls → x ∉ Ls →
      readKV n (updateA s x o) kvs = some vs) := by
  induction n with
  | zero =>
    refine ⟨?_, ?_, ?_⟩
    · intro s x o r v L h _ _
      simp [readV] at h
    · intro s x o as vs Ls h _ _
      cases as with
      | nil => exact h
      | cons a as => simp [readL] at h
    · intro s x o kvs vs Ls h _ _
      cases kvs with
      | nil => exact h
      | cons kv kvs => simp [readKV] at h
  | succ n ih =>
    obtain ⟨ihV, ihL, ihKV⟩ := ih
    refine ⟨?_, ?_, ?_⟩
    · intro s x o r v L h hr hx
      unfold readV at h ⊢
      unfold reachV at hr
      cases hl : lookupA s r with
      | none =>
        rw [hl] at h
        exact absurd h (by simp)
      | some obj =>
        rw [hl] at h hr
        cases obj with
        | prim w =>
          cases hr
          have hxr : x ≠ r := by
            intro he
            exact hx (by rw [he]; exact List.mem_singleton_self r)
          rw [lookupA_update_ne s x o r hxr.symm, hl]
          exact h
        | lst as =>
          dsimp only at h hr ⊢
          rw [Option.map_eq_some'] at h hr
          obtain ⟨vs, hvs, hv⟩ := h
          obtain ⟨Ls, hLs, hL⟩ := hr
          rw [← hL] at hx
          have hxr : x ≠ r := by
            intro he
            exact hx (by rw [he]; exact List.mem_cons_self r Ls)
          have hxLs : x ∉ Ls := fun hmem => hx (List.mem_cons_of_mem r hmem)
          rw [lookupA_update_ne s x o r hxr.symm, hl]
          dsimp only
          rw [Option.map_eq_some']
          exact ⟨vs, ihL s x o as vs Ls hvs hLs hxLs, hv⟩
        | tup as =>
          dsimp only at h hr ⊢
          rw [Option.map_eq_some'] at h hr
          obtain ⟨vs, hvs, hv⟩ := h
          obtain ⟨Ls, hLs, hL⟩ := hr
          rw [← hL] at hx
          have hxr : x ≠ r := by
            intro he
            exact hx (by rw [he]; exact List.mem_cons_self r Ls)
          have hxLs : x ∉ Ls := fun hmem => hx (List.mem_cons_of_mem r hmem)
          rw [lookupA_update_ne s x o r hxr.symm, hl]
          dsimp only
          rw [Option.map_eq_some']
          exact ⟨vs, ihL s x o as vs Ls hvs hLs hxLs, hv⟩
        | dict kvs =>
          dsimp only at h hr ⊢
          rw [Option.map_eq_some'] at h hr
          obtain ⟨vs, hvs, hv⟩ := h
          obtain ⟨Ls, hLs, hL⟩ := hr
          rw [← hL] at hx
          have hxr : x ≠ r := by
            intro he
            exact hx (by rw [he]; exact List.mem_cons_self r Ls)
          have hxLs : x ∉ Ls := fun hmem => hx (List.mem_cons_of_mem r hmem)
          rw [lookupA_update_ne s x o r hxr.symm, hl]
          dsimp only
          rw [Option.map_eq_some']
          exact ⟨vs, ihKV s x o kvs vs Ls hvs hLs hxLs, hv⟩
    · intro s x o as vs Ls h hr hx
      cases as with
      | nil => exact h
      | cons a as =>
        unfold readL at h ⊢
        unfold reachL at hr
        cases h1 : readV n s a with
        | none =>
          rw [h1] at h
          exact absurd h (by simp)
        | some v1 =>
          cases h2 : readL n s as with
          | none =>
            rw [h1, h2] at h
            exact absurd h (by simp)
          | some vs1 =>
            rw [h1, h2] at h
            cases hr1 : reachV n s a with
            | none =>
              rw [hr1] at hr
              exact absurd hr (by simp)
            | some L1 =>
              cases hr2 : reachL n s as with
              | none =>
                rw [hr1, hr2] at hr
                exact absurd hr (by simp)
              | some L2 =>
                rw [hr1, hr2] at hr
                cases hr
                rw [List.mem_append] at hx
                push_neg at hx
                rw [ihV s x o a v1 L1 h1 hr1 hx.1, ihL s x o as vs1 L2 h2 hr2 hx.2]
                exact h
    · intro s x o kvs vs Ls h hr hx
      cases kvs with
      | nil => exact h
      | cons kv kvs =>
        unfold readKV at h ⊢
        rw [List.map_cons] at hr
        unfold reachL at hr
        cases h1 : readV n s kv.2 with
        | none =>
          rw [h1] at h
          exact absurd h (by simp)
        | some v1 =>
          cases h2 : readKV n s kvs with
          | none =>
            rw [h1, h2] at h
            exact absurd h (by simp)
          | some vs1 =>
            rw [h1, h2] at h
            cases hr1 : reachV n s kv.2 with
            | none =>
              rw [hr1] at hr
              exact absurd hr (by simp)
            | some L1 =>
              cases hr2 : reachL n s (kvs.map Prod.snd) with
              | none =>
                rw [hr1, hr2] at hr
                exact absurd hr (by simp)
              | some L2 =>
                rw [hr1, hr2] at hr
                cases hr
                rw [List.mem_append] at hx
                push_neg at hx
                rw [ihV s x o kv.2 v1 L1 h1 hr1 hx.1,
                  ihKV s x o kvs vs1 L2 h2 hr2 hx.2]
                exact h

/-- Appending a fresh binding leaves every other address's binding
unchanged. -/
theorem assocFind_append_ne (mem : List (Nat × Obj)) (k : Nat) (o : Obj)
    (b : Nat) (hne : b ≠ k) :
    assocFind (mem ++ [(k, o)]) b = assocFind mem b := by
  induction mem with
  | nil =>
    have h2 : k ≠ b := fun e => hne e.symm
    simp [assocFind, h2]
  | cons e rest ih =>
    obtain ⟨k1, w⟩ := e
    by_cases h1 : k1 = b
    · simp [assocFind, h1]
    · simp [assocFind, h1, ih]

/-- Allocation does not disturb the lookup of any other address. -/
theorem lookupA_alloc_below (s : Store) (o : Obj) (b : Nat)
    (hb : b ≠ s.next) : lookupA (alloc s o).1 b = lookupA s b := by
  unfold lookupA alloc
  dsimp only
  exact assocFind_append_ne s.mem s.next o b hb

/-- The bookkeeping facts of a deep copy: the store only grows, the copy
root and all copied nodes are fresh (at or above the old next), the store
stays well-formed, and every pre-existing address is untouched. -/
theorem copy_facts_all (n : Nat) :
    (∀ s a s2 a2, copyV n s a = some (s2, a2) → WFStore s = true →
      Ext s s2 ∧ s.next ≤ s2.next ∧ s.next ≤ a2 ∧ a2 < s2.next ∧
        WFStore s2 = true ∧ (∀ b, b < s.next → lookupA s2 b = lookupA s b)) ∧
    (∀ s as s1 as2, copyL n s as = some (s1, as2) → WFStore s = true →
      Ext s s1 ∧ s.next ≤ s1.next ∧ (∀ b ∈ as2, s.next ≤ b ∧ b < s1.next) ∧
        WFStore s1 = true ∧ (∀ b, b < s.next → lookupA s1 b = lookupA s b)) ∧
    (∀ s kvs s1 kvs2, copyKV n s kvs = some (s1, kvs2) → WFStore s = true →
      Ext s s1 ∧ s.next ≤ s1.next ∧
        (∀ kv ∈ kvs2, s.next ≤ kv.2 ∧ kv.2 < s1.next) ∧
        WFStore s1 = true ∧ (∀ b, b < s.next → lookupA s1 b = lookupA s b)) := by
  induction n with
  | zero =>
    refine ⟨?_, ?_, ?_⟩
    · intro s a s2 a2 hcopy _
      simp [copyV] at hcopy
    · intro s as s1 as2 hcopy hwf
      cases as with
      | nil =>
        simp only [copyL, Option.some.injEq, Prod.mk.injEq] at hcopy
        obtain ⟨hs1, has2⟩ := hcopy
        subst hs1
        subst has2
        exact ⟨Ext.rfl s, le_refl _, by simp, hwf, fun b _ => rfl⟩
      | cons a as => simp [copyL] at hcopy
    · intro s kvs s1 kvs2 hcopy hwf
      cases kvs with
      | nil =>
        simp only [copyKV, Option.some.injEq, Prod.mk.injEq] at hcopy
        obtain ⟨hs1, hkvs2⟩ := hcopy
        subst hs1
        subst hkvs2
        exact ⟨Ext.rfl s, le_refl _, by simp, hwf, fun b _ => rfl⟩
      | cons kv kvs => simp [copyKV] at hcopy
  | succ n ih =>
    obtain ⟨ihV, ihL, ihKV⟩ := ih
    have allocCase : ∀ s1 (oarg : Obj) s2 a2, WFStore s1 = true →
        refsBelow oarg s1.next = true →
        alloc s1 oarg = (s2, a2) →
        Ext s1 s2 ∧ s1.next ≤ s2.next ∧ s1.next ≤ a2 ∧ a2 < s2.next ∧
          WFStore s2 = true ∧ (∀ b, b < s1.next → lookupA s2 b = lookupA s1 b) := by
      intro s1 oarg s2 a2 hwf1 href hpair
      have hs2 : s2 = (alloc s1 oarg).1 := by rw [hpair]
      have ha2 : a2 = (alloc s1 oarg).2 := by rw [hpair]
      have hnext : (alloc s1 oarg).1.next = s1.next + 1 := rfl
      have ha2v : (alloc s1 oarg).2 = s1.next := rfl
      subst hs2
      subst ha2
      refine ⟨Ext.alloc s1 oarg, by omega, by omega, by omega,
        WFStore_alloc s1 hwf1 oarg href, ?_⟩
      intro b hb
      exact lookupA_alloc_below s1 oarg b (by omega)
    refine ⟨?_, ?_, ?_⟩
    · intro s a s2 a2 hcopy hwf
      unfold copyV at hcopy
      cases hl : lookupA s a with
      | none =>
        rw [hl] at hcopy
        exact absurd hcopy (by simp)
      | some obj =>
        rw [hl] at hcopy
        cases obj with
        | prim w =>
          dsimp only at hcopy
          have hpair := Option.some.inj hcopy
          exact allocCase s (Obj.prim w) s2 a2 hwf rfl hpair
        | lst as =>
          dsimp only at hcopy
          cases hcl : copyL n s as with
          | none =>
            rw [hcl] at hcopy
            exact absurd hcopy (by simp)
          | some pr =>
            obtain ⟨s1, as1⟩ := pr
            rw [hcl] at hcopy
            dsimp only at hcopy
            have hpair := Option.some.inj hcopy
            obtain ⟨hExt1, hNext1, hElems1, hWF1, hBelow1⟩ := ihL s as s1 as1 hcl hwf
            have href : refsBelow (Obj.lst as1) s1.next = true := by
              simp only [refsBelow, List.all_eq_true, decide_eq_true_eq]
              intro b hb
              exact (hElems1 b hb).2
            obtain ⟨hExt2, hNext2, hA2a, hA2b, hWF2, hBelow2⟩ :=
              allocCase s1 (Obj.lst as1) s2 a2 hWF1 href hpair
            refine ⟨Ext.trans hExt1 hExt2, by omega, by omega, by omega, hWF2, ?_⟩
            intro b hb
            rw [hBelow2 b (by omega), hBelow1 b hb]
        | tup as =>
          dsimp only at hcopy
          cases hcl : copyL n s as with
          | none =>
            rw [hcl] at hcopy
            exact absurd hcopy (by simp)
          | some pr =>
            obtain ⟨s1, as1⟩ := pr
            rw [hcl] at hcopy
            dsimp only at hcopy
            have hpair := Option.some.inj hcopy
            obtain ⟨hExt1, hNext1, hElems1, hWF1, hBelow1⟩ := ihL s as s1 as1 hcl hwf
            have href : refsBelow (Obj.tup as1) s1.next = true := by
              simp only [refsBelow, List.all_eq_true, decide_eq_true_eq]
              intro b hb
              exact (hElems1 b hb).2
            obtain ⟨hExt2, hNext2, hA2a, hA2b, hWF2, hBelow2⟩ :=
              allocCase s1 (Obj.tup as1) s2 a2 hWF1 href hpair
            refine ⟨Ext.trans hExt1 hExt2, by omega, by omega, by omega, hWF2, ?_⟩
            intro b hb
            rw [hBelow2 b (by omega), hBelow1 b hb]
        | dict kvs =>
          dsimp only at hcopy
          cases hcl : copyKV n s kvs with
          | none =>
            rw [hcl] at hcopy
            exact absurd hcopy (by simp)
          | some pr =>
            obtain ⟨s1, kvs1⟩ := pr
            rw [hcl] at hcopy
            dsimp only at hcopy
            have hpair := Option.some.inj hcopy
            obtain ⟨hExt1, hNext1, hElems1, hWF1, hBelow1⟩ := ihKV s kvs s1 kvs1 hcl hwf
            have href : refsBelow (Obj.dict kvs1) s1.next = true := by
              simp only [refsBelow, List.all_eq_true, decide_eq_true_eq]
              intro kv hkv
              exact (hElems1 kv hkv).2
            obtain ⟨hExt2, hNext2, hA2a, hA2b, hWF2, hBelow2⟩ :=
              allocCase s1 (Obj.dict kvs1) s2 a2 hWF1 href hpair
            refine ⟨Ext.trans hExt1 hExt2, by omega, by omega, by omega, hWF2, ?_⟩
            intro b hb
            rw [hBelow2 b (by omega), hBelow1 b hb]
    · intro s as s1 as2 hcopy hwf
      cases as with
      | nil =>
        simp only [copyL, Option.some.injEq, Prod.mk.injEq] at hcopy
        obtain ⟨hs1, has2⟩ := hcopy
        subst hs1
        subst has2
        exact ⟨Ext.rfl s, le_refl _, by simp, hwf, fun b _ => rfl⟩
      | cons a as =>
        unfold copyL at hcopy
        cases hc1 : copyV n s a with
        | none =>
          rw [hc1] at hcopy
          exact absurd hcopy (by simp)
        | some pr1 =>
          obtain ⟨sA, a1⟩ := pr1
          rw [hc1] at hcopy
          dsimp only at hcopy
          cases hc2 : copyL n sA as with
          | none =>
            rw [hc2] at hcopy
            exact absurd hcopy (by simp)
          | some pr2 =>
            obtain ⟨sB, as1⟩ := pr2
            rw [hc2] at hcopy
            dsimp only at hcopy
            injection hcopy with hpair
            injection hpair with hA hB
            subst hA
            subst hB
            obtain ⟨hExtA, hNextA, hA1a, hA1b, hWFA, hBelowA⟩ := ihV s a sA a1 hc1 hwf
            obtain ⟨hExtB, hNextB, hElemsB, hWFB, hBelowB⟩ := ihL sA as sB as1 hc2 hWFA
            refine ⟨Ext.trans hExtA hExtB, by omega, ?_, hWFB, ?_⟩
            · intro b hb
              rw [List.mem_cons] at hb
              cases hb with
              | inl hb =>
                subst hb
                exact ⟨by omega, by omega⟩
              | inr hb =>
                have := hElemsB b hb
                exact ⟨by omega, by omega⟩
            · intro b hb
              rw [hBelowB b (by omega), hBelowA b hb]
    · intro s kvs s1 kvs2 hcopy hwf
      cases kvs with
      | nil =>
        simp only [copyKV, Option.some.injEq, Prod.mk.injEq] at hcopy
        obtain ⟨hs1, hkvs2⟩ := hcopy
        subst hs1
        subst hkvs2
        exact ⟨Ext.rfl s, le_refl _, by simp, hwf, fun b _ => rfl⟩
      | cons kv kvs =>
        unfold copyKV at hcopy
        cases hc1 : copyV n s kv.2 with
        | none =>
          rw [hc1] at hcopy
          exact absurd hcopy (by simp)
        | some pr1 =>
          obtain ⟨sA, a1⟩ := pr1
          rw [hc1] at hcopy
          dsimp only at hcopy
          cases hc2 : copyKV n sA kvs with
          | none =>
            rw [hc2] at hcopy
            exact absurd hcopy (by simp)
          | some pr2 =>
            obtain ⟨sB, kvs1⟩ := pr2
            rw [hc2] at hcopy
            dsimp only at hcopy
            injection hcopy with hpair
            injection hpair with hA hB
            subst hA
            subst hB
            obtain ⟨hExtA, hNextA, hA1a, hA1b, hWFA, hBelowA⟩ := ihV s kv.2 sA a1 hc1 hwf
            obtain ⟨hExtB, hNextB, hElemsB, hWFB, hBelowB⟩ := ihKV sA kvs sB kvs1 hc2 hWFA
            refine ⟨Ext.trans hExtA hExtB, by omega, ?_, hWFB, ?_⟩
            · intro e he
              rw [List.mem_cons] at he
              cases he with
              | inl he =>
                subst he
                exact ⟨by omega, by omega⟩
              | inr he =>
                have := hElemsB e he
                exact ⟨by omega, by omega⟩
            · intro b hb
              rw [hBelowB b (by omega), hBelowA b hb]

/-- The deep copy is faithful: whatever value was readable at the original
root is readable, unchanged, at the copy root, in the copy's store or any
extension of it. -/
theorem copy_read_all (k : Nat) :
    (∀ n s a s2 a2 s3 v, WFStore s = true → copyV n s a = some (s2, a2) →
      Ext s2 s3 → readV k s a = some v → readV k s3 a2 = some v) ∧
    (∀ n s as s1 as2 s3 vs, WFStore s = true → copyL n s as = some (s1, as2) →
      Ext s1 s3 → readL k s as = some vs → readL k s3 as2 = some vs) ∧
    (∀ n s kvs s1 kvs2 s3 vs, WFStore s = true →
      copyKV n s kvs = some (s1, kvs2) → Ext s1 s3 →
      readKV k s kvs = some vs → readKV k s3 kvs2 = some vs) := by
  induction k with
  | zero =>
    refine ⟨?_, ?_, ?_⟩
    · intro n s a s2 a2 s3 v _ _ _ h
      simp [readV] at h
    · intro n s as s1 as2 s3 vs _ hcopy _ h
      cases as with
      | nil =>
        simp only [copyL, Option.some.injEq, Prod.mk.injEq] at hcopy
        obtain ⟨h1, h2⟩ := hcopy
        subst h1
        subst h2
        exact h
      | cons a as => simp [readL] at h
    · intro n s kvs s1 kvs2 s3 vs _ hcopy _ h
      cases kvs with
      | nil =>
        simp only [copyKV, Option.some.injEq, Prod.mk.injEq] at hcopy
        obtain ⟨h1, h2⟩ := hcopy
        subst h1
        subst h2
        exact h
      | cons kv kvs => simp [readKV] at h
  | succ k ih =>
    obtain ⟨ihV, ihL, ihKV⟩ := ih
    refine ⟨?_, ?_, ?_⟩
    · intro n s a s2 a2 s3 v hwf hcopy hext h
      cases n with
      | zero => simp [copyV] at hcopy
      | succ n =>
        unfold copyV at hcopy
        unfold readV at h ⊢
        cases hl : lookupA s a with
        | none =>
          rw [hl] at h
          exact absurd h (by simp)
        | some obj =>
          rw [hl] at h hcopy
          cases obj with
          | prim w =>
            dsimp only at h hcopy
            have hpair := Option.some.inj hcopy
            have hs2 : (alloc s (Obj.prim w)).1 = s2 := congrArg Prod.fst hpair
            have ha2 : (alloc s (Obj.prim w)).2 = a2 := congrArg Prod.snd hpair
            subst hs2
            subst ha2
            have hl3 : lookupA s3 (alloc s (Obj.prim w)).2 = some (Obj.prim w) :=
              hext _ _ (lookupA_alloc_self s hwf (Obj.prim w))
            rw [hl3]
            exact h
          | lst as =>
            dsimp only at h hcopy
            cases hcl : copyL n s as with
            | none =>
              rw [hcl] at hcopy
              exact absurd hcopy (by simp)
            | some pr =>
              obtain ⟨s1, as1⟩ := pr
              rw [hcl] at hcopy
              dsimp only at hcopy
              have hpair := Option.some.inj hcopy
              have hs2 : (alloc s1 (Obj.lst as1)).1 = s2 := congrArg Prod.fst hpair
              have ha2 : (alloc s1 (Obj.lst as1)).2 = a2 := congrArg Prod.snd hpair
              subst hs2
              subst ha2
              obtain ⟨_, _, _, hWF1, _⟩ := (copy_facts_all n).2.1 s as s1 as1 hcl hwf
              have hl3 : lookupA s3 (alloc s1 (Obj.lst as1)).2
                  = some (Obj.lst as1) :=
                hext _ _ (lookupA_alloc_self s1 hWF1 (Obj.lst as1))
              rw [hl3]
              rw [Option.map_eq_some'] at h ⊢
              obtain ⟨vs, hvs, hv⟩ := h
              exact ⟨vs, ihL n s as s1 as1 s3 vs hwf hcl
                (Ext.trans (Ext.alloc s1 (Obj.lst as1)) hext) hvs, hv⟩
          | tup as =>
            dsimp only at h hcopy
            cases hcl : copyL n s as with
            | none =>
              rw [hcl] at hcopy
              exact absurd hcopy (by simp)
            | some pr =>
              obtain ⟨s1, as1⟩ := pr
              rw [hcl] at hcopy
              dsimp only at hcopy
              have hpair := Option.some.inj hcopy
              have hs2 : (alloc s1 (Obj.tup as1)).1 = s2 := congrArg Prod.fst hpair
              have ha2 : (alloc s1 (Obj.tup as1)).2 = a2 := congrArg Prod.snd hpair
              subst hs2
              subst ha2
              obtain ⟨_, _, _, hWF1, _⟩ := (copy_facts_all n).2.1 s as s1 as1 hcl hwf
              have hl3 : lookupA s3 (alloc s1 (Obj.tup as1)).2
                  = some (Obj.tup as1) :=
                hext _ _ (lookupA_alloc_self s1 hWF1 (Obj.tup as1))
              rw [hl3]
              rw [Option.map_eq_some'] at h ⊢
              obtain ⟨vs, hvs, hv⟩ := h
              exact ⟨vs, ihL n s as s1 as1 s3 vs hwf hcl
                (Ext.trans (Ext.alloc s1 (Obj.tup as1)) hext) hvs, hv⟩
          | dict kvs =>
            dsimp only at h hcopy
            cases hcl : copyKV n s kvs with
            | none =>
              rw [hcl] at hcopy
              exact absurd hcopy (by simp)
            | some pr =>
              obtain ⟨s1, kvs1⟩ := pr
              rw [hcl] at hcopy
              dsimp only at hcopy
              have hpair := Option.some.inj hcopy
              have hs2 : (alloc s1 (Obj.dict kvs1)).1 = s2 := congrArg Prod.fst hpair
              have ha2 : (alloc s1 (Obj.dict kvs1)).2 = a2 := congrArg Prod.snd hpair
              subst hs2
              subst ha2
              obtain ⟨_, _, _, hWF1, _⟩ := (copy_facts_all n).2.2 s kvs s1 kvs1 hcl hwf
              have hl3 : lookupA s3 (alloc s1 (Obj.dict kvs1)).2
                  = some (Obj.dict kvs1) :=
                hext _ _ (lookupA_alloc_self s1 hWF1 (Obj.dict kvs1))
              rw [hl3]
              rw [Option.map_eq_some'] at h ⊢
              obtain ⟨vs, hvs, hv⟩ := h
              exact ⟨vs, ihKV n s kvs s1 kvs1 s3 vs hwf hcl
                (Ext.trans (Ext.alloc s1 (Obj.dict kvs1)) hext) hvs, hv⟩
    · intro n s as s1 as2 s3 vs hwf hcopy hext h
      cases as with
      | nil =>
        simp only [copyL, Option.some.injEq, Prod.mk.injEq] at hcopy
        obtain ⟨h1, h2⟩ := hcopy
        subst h1
        subst h2
        exact h
      | cons a as =>
        cases n with
        | zero => simp [copyL] at hcopy
        | succ n =>
          unfold copyL at hcopy
          cases hc1 : copyV n s a with
          | none =>
            rw [hc1] at hcopy
            exact absurd hcopy (by simp)
          | some pr1 =>
            obtain ⟨sA, a1⟩ := pr1
            rw [hc1] at hcopy
            dsimp only at hcopy
            cases hc2 : copyL n sA as with
            | none =>
              rw [hc2] at hcopy
              exact absurd hcopy (by simp)
            | some pr2 =>
              obtain ⟨sB, as1⟩ := pr2
              rw [hc2] at hcopy
              dsimp only at hcopy
              injection hcopy with hpair
              injection hpair with hA hB
              subst hA
              subst hB
              unfold readL at h ⊢
              cases h1 : readV k s a with
              | none =>
                rw [h1] at h
                exact absurd h (by simp)
              | some v1 =>
                cases h2 : readL k s as with
                | none =>
                  rw [h1, h2] at h
                  exact absurd h (by simp)
                | some vs1 =>
                  rw [h1, h2] at h
                  obtain ⟨hExtA, _, _, _, hWFA, _⟩ :=
                    (copy_facts_all n).1 s a sA a1 hc1 hwf
                  obtain ⟨hExtB, _, _, _, _⟩ :=
                    (copy_facts_all n).2.1 sA as sB as1 hc2 hWFA
                  have g1 : readV k s3 a1 = some v1 :=
                    ihV n s a sA a1 s3 v1 hwf hc1 (Ext.trans hExtB hext) h1
                  have h2A : readL k sA as = some vs1 :=
                    (read_ext_all k).2.1 s sA as vs1 hExtA h2
                  have g2 : readL k s3 as1 = some vs1 :=
                    ihL n sA as sB as1 s3 vs1 hWFA hc2 hext h2A
                  rw [g1, g2]
                  exact h
    · intro n s kvs s1 kvs2 s3 vs hwf hcopy hext h
      cases kvs with
      | nil =>
        simp only [copyKV, Option.some.injEq, Prod.mk.injEq] at hcopy
        obtain ⟨h1, h2⟩ := hcopy
        subst h1
        subst h2
        exact h
      | cons kv kvs =>
        cases n with
        | zero => simp [copyKV] at hcopy
        | succ n =>
          unfold copyKV at hcopy
          cases hc1 : copyV n s kv.2 with
          | none =>
            rw [hc1] at hcopy
            exact absurd hcopy (by simp)
          | some pr1 =>
            obtain ⟨sA, a1⟩ := pr1
            rw [hc1] at hcopy
            dsimp only at hcopy
            cases hc2 : copyKV n sA kvs with
            | none =>
              rw [hc2] at hcopy
              exact absurd hcopy (by simp)
            | some pr2 =>
              obtain ⟨sB, kvs1⟩ := pr2
              rw [hc2] at hcopy
              dsimp only at hcopy
              injection hcopy with hpair
              injection hpair with hA hB
              subst hA
              subst hB
              unfold readKV at h ⊢
              cases h1 : readV k s kv.2 with
              | none =>
                rw [h1] at h
                exact absurd h (by simp)
              | some v1 =>
                cases h2 : readKV k s kvs with
                | none =>
                  rw [h1, h2] at h
                  exact absurd h (by simp)
                | some vs1 =>
                  rw [h1, h2] at h
                  obtain ⟨hExtA, _, _, _, hWFA, _⟩ :=
                    (copy_facts_all n).1 s kv.2 sA a1 hc1 hwf
                  obtain ⟨hExtB, _, _, _, _⟩ :=
                    (copy_facts_all n).2.2 sA kvs sB kvs1 hc2 hWFA
                  have g1 : readV k s3 a1 = some v1 :=
                    ihV n s kv.2 sA a1 s3 v1 hwf hc1 (Ext.trans hExtB hext) h1
                  have h2A : readKV k sA kvs = some vs1 :=
                    (read_ext_all k).2.2 s sA kvs vs1 hExtA h2
                  have g2 : readKV k s3 kvs1 = some vs1 :=
                    ihKV n sA kvs sB kvs1 s3 vs1 hWFA hc2 hext h2A
                  rw [g1, g2]
                  exact h

/-- Every address visited from the copy root is fresh: it lies at or above
the old store's next address. -/
theorem copy_reach_fresh_all (k : Nat) :
    (∀ n s a s2 a2 s3 L, WFStore s = true → copyV n s a = some (s2, a2) →
      Ext s2 s3 → reachV k s3 a2 = some L → ∀ b ∈ L, s.next ≤ b) ∧
    (∀ n s as s1 as2 s3 Ls, WFStore s = true → copyL n s as = some (s1, as2) →
      Ext s1 s3 → reachL k s3 as2 = some Ls → ∀ b ∈ Ls, s.next ≤ b) ∧
    (∀ n s kvs s1 kvs2 s3 Ls, WFStore s = true →
      copyKV n s kvs = some (s1, kvs2) → Ext s1 s3 →
      reachL k s3 (kvs2.map Prod.snd) = some Ls → ∀ b ∈ Ls, s.next ≤ b) := by
  induction k with
  | zero =>
    refine ⟨?_, ?_, ?_⟩
    · intro n s a s2 a2 s3 L _ _ _ hr
      simp [reachV] at hr
    · intro n s as s1 as2 s3 Ls _ _ _ hr
      cases as2 with
      | nil =>
        cases hr
        intro b hb
        simp at hb
      | cons a1 as1 => simp [reachL] at hr
    · intro n s kvs s1 kvs2 s3 Ls _ _ _ hr
      cases kvs2 with
      | nil =>
        cases hr
        intro b hb
        simp at hb
      | cons kv1 kvs1 =>
        rw [List.map_cons] at hr
        simp [reachL] at hr
  | succ k ih =>
    obtain ⟨ihV, ihL, ihKV⟩ := ih
    refine ⟨?_, ?_, ?_⟩
    · intro n s a s2 a2 s3 L hwf hcopy hext hr
      cases n with
      | zero => simp [copyV] at hcopy
      | succ n =>
        unfold copyV at hcopy
        cases hl : lookupA s a with
        | none =>
          rw [hl] at hcopy
          exact absurd hcopy (by simp)
        | some obj =>
          rw [hl] at hcopy
          cases obj with
          | prim w =>
            dsimp only at hcopy
            have hpair := Option.some.inj hcopy
            have hs2 : (alloc s (Obj.prim w)).1 = s2 := congrArg Prod.fst hpair
            have ha2 : (alloc s (Obj.prim w)).2 = a2 := congrArg Prod.snd hpair
            subst hs2
            subst ha2
            have hl3 : lookupA s3 (alloc s (Obj.prim w)).2 = some (Obj.prim w) :=
              hext _ _ (lookupA_alloc_self s hwf (Obj.prim w))
            unfold reachV at hr
            rw [hl3] at hr
            cases hr
            intro b hb
            rw [List.mem_singleton] at hb
            subst hb
            exact Nat.le_refl s.next
          | lst as =>
            dsimp only at hcopy
            cases hcl : copyL n s as with
            | none =>
              rw [hcl] at hcopy
              exact absurd hcopy (by simp)
            | some pr =>
              obtain ⟨s1, as1⟩ := pr
              rw [hcl] at hcopy
              dsimp only at hcopy
              have hpair := Option.some.inj hcopy
              have hs2 : (alloc s1 (Obj.lst as1)).1 = s2 := congrArg Prod.fst hpair
              have ha2 : (alloc s1 (Obj.lst as1)).2 = a2 := congrArg Prod.snd hpair
              subst hs2
              subst ha2
              obtain ⟨_, hNext1, _, hWF1, _⟩ :=
                (copy_facts_all n).2.1 s as s1 as1 hcl hwf
              have hl3 : lookupA s3 (alloc s1 (Obj.lst as1)).2
                  = some (Obj.lst as1) :=
                hext _ _ (lookupA_alloc_self s1 hWF1 (Obj.lst as1))
              unfold reachV at hr
              rw [hl3] at hr
              dsimp only at hr
              rw [Option.map_eq_some'] at hr
              obtain ⟨Ls1, hLs1, hL⟩ := hr
              rw [← hL]
              intro b hb
              rw [List.mem_cons] at hb
              cases hb with
              | inl hb =>
                subst hb
                exact hNext1
              | inr hb =>
                exact ihL n s as s1 as1 s3 Ls1 hwf hcl
                  (Ext.trans (Ext.alloc s1 (Obj.lst as1)) hext) hLs1 b hb
          | tup as =>
            dsimp only at hcopy
            cases hcl : copyL n s as with
            | none =>
              rw [hcl] at hcopy
              exact absurd hcopy (by simp)
            | some pr =>
              obtain ⟨s1, as1⟩ := pr
              rw [hcl] at hcopy
              dsimp only at hcopy
              have hpair := Option.some.inj hcopy
              have hs2 : (alloc s1 (Obj.tup as1)).1 = s2 := congrArg Prod.fst hpair
              have ha2 : (alloc s1 (Obj.tup as1)).2 = a2 := congrArg Prod.snd hpair
              subst hs2
              subst ha2
              obtain ⟨_, hNext1, _, hWF1, _⟩ :=
                (copy_facts_all n).2.1 s as s1 as1 hcl hwf
              have hl3 : lookupA s3 (alloc s1 (Obj.tup as1)).2
                  = some (Obj.tup as1) :=
                hext _ _ (lookupA_alloc_self s1 hWF1 (Obj.tup as1))
              unfold reachV at hr
              rw [hl3] at hr
              dsimp only at hr
              rw [Option.map_eq_some'] at hr
              obtain ⟨Ls1, hLs1, hL⟩ := hr
              rw [← hL]
              intro b hb
              rw [List.mem_cons] at hb
              cases hb with
              | inl hb =>
                subst hb
                exact hNext1
              | inr hb =>
                exact ihL n s as s1 as1 s3 Ls1 hwf hcl
                  (Ext.trans (Ext.alloc s1 (Obj.tup as1)) hext) hLs1 b hb
          | dict kvs =>
            dsimp only at hcopy
            cases hcl : copyKV n s kvs with
            | none =>
              rw [hcl] at hcopy
              exact absurd hcopy (by simp)
            | some pr =>
              obtain ⟨s1, kvs1⟩ := pr
              rw [hcl] at hcopy
              dsimp only at hcopy
              have hpair := Option.some.inj hcopy
              have hs2 : (alloc s1 (Obj.dict kvs1)).1 = s2 := congrArg Prod.fst hpair
              have ha2 : (alloc s1 (Obj.dict kvs1)).2 = a2 := congrArg Prod.snd hpair
              subst hs2
              subst ha2
              obtain ⟨_, hNext1, _, hWF1, _⟩ :=
                (copy_facts_all n).2.2 s kvs s1 kvs1 hcl hwf
              have hl3 : lookupA s3 (alloc s1 (Obj.dict kvs1)).2
                  = some (Obj.dict kvs1) :=
                hext _ _ (lookupA_alloc_self s1 hWF1 (Obj.dict kvs1))
              unfold reachV at hr
              rw [hl3] at hr
              dsimp only at hr
              rw [Option.map_eq_some'] at hr
              obtain ⟨Ls1, hLs1, hL⟩ := hr
              rw [← hL]
              intro b hb
              rw [List.mem_cons] at hb
              cases hb with
              | inl hb =>
                subst hb
                exact hNext1
              | inr hb =>
                exact ihKV n s kvs s1 kvs1 s3 Ls1 hwf hcl
                  (Ext.trans (Ext.alloc s1 (Obj.dict kvs1)) hext) hLs1 b hb
    · intro n s as s1 as2 s3 Ls hwf hcopy hext hr
      cases as with
      | nil =>
        simp only [copyL, Option.some.injEq, Prod.mk.injEq] at hcopy
        obtain ⟨h1, h2⟩ := hcopy
        subst h1
        subst h2
        cases hr
        intro b hb
        simp at hb
      | cons a as =>
        cases n with
        | zero => simp [copyL] at hcopy
        | succ n =>
          unfold copyL at hcopy
          cases hc1 : copyV n s a with
          | none =>
            rw [hc1] at hcopy
            exact absurd hcopy (by simp)
          | some pr1 =>
            obtain ⟨sA, a1⟩ := pr1
            rw [hc1] at hcopy
            dsimp only at hcopy
            cases hc2 : copyL n sA as with
            | none =>
              rw [hc2] at hcopy
              exact absurd hcopy (by simp)
            | some pr2 =>
              obtain ⟨sB, as1⟩ := pr2
              rw [hc2] at hcopy
              dsimp only at hcopy
              injection hcopy with hpair
              injection hpair with hA hB
              subst hA
              subst hB
              unfold reachL at hr
              cases hr1 : reachV k s3 a1 with
              | none =>
                rw [hr1] at hr
                exact absurd hr (by simp)
              | some L1 =>
                cases hr2 : reachL k s3 as1 with
                | none =>
                  rw [hr1, hr2] at hr
                  exact absurd hr (by simp)
                | some L2 =>
                  rw [hr1, hr2] at hr
                  cases hr
                  obtain ⟨_, hNextA, _, _, hWFA, _⟩ :=
                    (copy_facts_all n).1 s a sA a1 hc1 hwf
                  obtain ⟨hExtB, _, _, _, _⟩ :=
                    (copy_facts_all n).2.1 sA as sB as1 hc2 hWFA
                  intro b hb
                  rw [List.mem_append] at hb
                  cases hb with
                  | inl hb =>
                    exact ihV n s a sA a1 s3 L1 hwf hc1
                      (Ext.trans hExtB hext) hr1 b hb
                  | inr hb =>
                    have := ihL n sA as sB as1 s3 L2 hWFA hc2 hext hr2 b hb
                    omega
    · intro n s kvs s1 kvs2 s3 Ls hwf hcopy hext hr
      cases kvs with
      | nil =>
        simp only [copyKV, Option.some.injEq, Prod.mk.injEq] at hcopy
        obtain ⟨h1, h2⟩ := hcopy
        subst h1
        subst h2
        cases hr
        intro b hb
        simp at hb
      | cons kv kvs =>
        cases n with
        | zero => simp [copyKV] at hcopy
        | succ n =>
          unfold copyKV at hcopy
          cases hc1 : copyV n s kv.2 with
          | none =>
            rw [hc1] at hcopy
            exact absurd hcopy (by simp)
          | some pr1 =>
            obtain ⟨sA, a1⟩ := pr1
            rw [hc1] at hcopy
            dsimp only at hcopy
            cases hc2 : copyKV n sA kvs with
            | none =>
              rw [hc2] at hcopy
              exact absurd hcopy (by simp)
            | some pr2 =>
              obtain ⟨sB, kvs1⟩ := pr2
              rw [hc2] at hcopy
              dsimp only at hcopy
              injection hcopy with hpair
              injection hpair with hA hB
              subst hA
              subst hB
              rw [List.map_cons] at hr
              unfold reachL at hr
              cases hr1 : reachV k s3 a1 with
              | none =>
                rw [hr1] at hr
                exact absurd hr (by simp)
              | some L1 =>
                cases hr2 : reachL k s3 (kvs1.map Prod.snd) with
                | none =>
                  rw [hr1, hr2] at hr
                  exact absurd hr (by simp)
                | some L2 =>
                  rw [hr1, hr2] at hr
                  cases hr
                  obtain ⟨_, hNextA, _, _, hWFA, _⟩ :=
                    (copy_facts_all n).1 s kv.2 sA a1 hc1 hwf
                  obtain ⟨hExtB, _, _, _, _⟩ :=
                    (copy_facts_all n).2.2 sA kvs sB kvs1 hc2 hWFA
                  intro b hb
                  rw [List.mem_append] at hb
                  cases hb with
                  | inl hb =>
                    exact ihV n s kv.2 sA a1 s3 L1 hwf hc1
                      (Ext.trans hExtB hext) hr1 b hb
                  | inr hb =>
                    have := ihKV n sA kvs sB kvs1 s3 L2 hWFA hc2 hext hr2 b hb
                    omega

end Heap

/-- C6: the deep copy taken by the data accessor (and by the constructor
for an explicit initial mapping) is a faithful, independent copy.  In the
heap model of the object graph: the copy reads back the same value as the
original; mutating any address reachable from the copy (whatever object is
written there) leaves the value at the monitor's internal root unchanged,
so later get or data calls observe the same data; and symmetrically,
mutating any address reachable from the original root — the caller's
mapping handed to the constructor — leaves the value at the copy
unchanged. -/
theorem deepcopy_independence
    (s s2 : Heap.Store) (r r2 x : Nat) (o : Heap.Obj) (n k : Nat) (v : PyVal)
    (L L2 : List Nat)
    (hwf : Heap.WFStore s = true)
    (hcopy : Heap.deepcopy n s r = some (s2, r2))
    (hv : Heap.readV k s r = some v) :
    Heap.readV k s2 r2 = some v ∧
    (Heap.reachV k s2 r2 = some L → x ∈ L →
      Heap.readV k (Heap.updateA s2 x o) r = some v) ∧
    (Heap.reachV k s2 r = some L2 → x ∈ L2 →
      Heap.readV k (Heap.updateA s2 x o) r2 = some v) := by
  obtain ⟨hExt, hNext, hR2a, hR2b, hWF2, hBelow⟩ :=
    (Heap.copy_facts_all n).1 s r s2 r2 hcopy hwf
  have hfaith : Heap.readV k s2 r2 = some v :=
    (Heap.copy_read_all k).1 n s r s2 r2 s2 v hwf hcopy (Heap.Ext.rfl s2) hv
  obtain ⟨L0, hL0⟩ := (Heap.read_implies_reach_all k).1 s r v hv
  have hL0b : ∀ b ∈ L0, b < s.next := (Heap.reach_below_all k).1 s r L0 hwf hL0
  have hL0s2 : Heap.reachV k s2 r = some L0 :=
    (Heap.reach_ext_all k).1 s s2 r L0 hExt hL0
  have hvs2 : Heap.readV k s2 r = some v :=
    (Heap.read_ext_all k).1 s s2 r v hExt hv
  refine ⟨hfaith, ?_, ?_⟩
  · intro hreach hx
    have hxge : s.next ≤ x :=
      (Heap.copy_reach_fresh_all k).1 n s r s2 r2 s2 L hwf hcopy
        (Heap.Ext.rfl s2) hreach x hx
    have hxnot : x ∉ L0 := fun hmem => by
      have := hL0b x hmem
      omega
    exact (Heap.frame_all k).1 s2 x o r v L0 hvs2 hL0s2 hxnot
  · intro hreach2 hx
    have hL2 : L2 = L0 := by
      rw [hreach2] at hL0s2
      exact Option.some.inj hL0s2
    subst hL2
    have hxlt : x < s.next := hL0b x hx
    obtain ⟨L3, hL3⟩ := (Heap.read_implies_reach_all k).1 s2 r2 v hfaith
    have hge : ∀ b ∈ L3, s.next ≤ b :=
      (Heap.copy_reach_fresh_all k).1 n s r s2 r2 s2 L3 hwf hcopy
        (Heap.Ext.rfl s2) hL3
    have hxnot : x ∉ L3 := fun hmem => by
      have := hge x hmem
      omega
    exact (Heap.frame_all k).1 s2 x o r2 v L3 hfaith hL3 hxnot

/-- Witness for deepcopy_independence on the concrete heap: once mutating
inside the copy (address 9, the copy's dict) and once mutating inside the
original (address 1, the original's day list). -/
theorem deepcopy_independence_witness :
    (Heap.readV 10 heapCopyEx.1 heapCopyEx.2 = some heapValEx ∧
      (Heap.reachV 10 heapCopyEx.1 heapCopyEx.2 = some [9, 8, 7, 5, 6] →
        9 ∈ [9, 8, 7, 5, 6] →
        Heap.readV 10 (Heap.updateA heapCopyEx.1 9 (Heap.Obj.dict [])) 0
          = some heapValEx) ∧
      (Heap.reachV 10 heapCopyEx.1 0 = some [0, 1, 2, 3, 4] →
        9 ∈ [0, 1, 2, 3, 4] →
        Heap.readV 10 (Heap.updateA heapCopyEx.1 9 (Heap.Obj.dict []))
          heapCopyEx.2 = some heapValEx)) ∧
    (Heap.readV 10 heapCopyEx.1 heapCopyEx.2 = some heapValEx ∧
      (Heap.reachV 10 heapCopyEx.1 heapCopyEx.2 = some [9, 8, 7, 5, 6] →
        1 ∈ [9, 8, 7, 5, 6] →
        Heap.readV 10 (Heap.updateA heapCopyEx.1 1 (Heap.Obj.lst [])) 0
          = some heapValEx) ∧
      (Heap.reachV 10 heapCopyEx.1 0 = some [0, 1, 2, 3, 4] →
        1 ∈ [0, 1, 2, 3, 4] →
        Heap.readV 10 (Heap.updateA heapCopyEx.1 1 (Heap.Obj.lst []))
          heapCopyEx.2 = some heapValEx)) :=
  ⟨deepcopy_independence heapStoreEx heapCopyEx.1 0 heapCopyEx.2 9
      (Heap.Obj.dict []) 10 10 heapValEx [9, 8, 7, 5, 6] [0, 1, 2, 3, 4]
      rfl rfl rfl,
    deepcopy_independence heapStoreEx heapCopyEx.1 0 heapCopyEx.2 1
      (Heap.Obj.lst []) 10 10 heapValEx [9, 8, 7, 5, 6] [0, 1, 2, 3, 4]
      rfl rfl rfl⟩
